import Mathlib

/-!
# Verification of the transcript chunking / rate-limited summarization core

Shallow embedding of the chunking engine, rate throttler, retrying
summarizer, map-stage batching and transcript validator of the
youtube-summarizer repository.

Modelling conventions:
* a JS string is embedded as its character sequence `List Char`;
* JS numbers are embedded as exact rationals (`ℚ`) where fractional
  arithmetic occurs and as `ℕ`/`ℤ` where the source only ever holds
  integers; the inputs used in concrete evaluations are chosen away from
  floating-point boundary noise;
* `Date.now()` timestamps are milliseconds as `ℤ`;
* async sleeps are modelled by explicit return times: a function that
  awaits returns the (later) time at which it resumes.
-/

namespace Summarizer

/-! ## Character classes (JS regex classes used by the source) -/

/-- JS `\s` for the characters that actually occur in transcripts:
space, tab, newline, carriage return, vertical tab, form feed. -/
def isWSChar (c : Char) : Bool :=
  c = ' ' || c = '\t' || c = '\n' || c = '\r' || c = '\x0b' || c = '\x0c'

/-- Sentence-terminator class `[.!?…]` of `baseStrategy.splitIntoSentences`. -/
def isTermChar (c : Char) : Bool :=
  c = '.' || c = '!' || c = '?' || c = '…'

/-- Terminator class `[.!?]` of the simple-split fallback regex (no ellipsis). -/
def isTerm3Char (c : Char) : Bool :=
  c = '.' || c = '!' || c = '?'

/-- The optional trailing quote `["']` of the sentence regex. -/
def isQuoteChar (c : Char) : Bool :=
  c = '"' || c = '\''

/-- JS `[a-zA-Z0-9]`. -/
def isAlnumChar (c : Char) : Bool :=
  ('a' ≤ c && c ≤ 'z') || ('A' ≤ c && c ≤ 'Z') || ('0' ≤ c && c ≤ '9')

/-- JS `String.prototype.trim`: strip whitespace from both ends. -/
def trimChars (cs : List Char) : List Char :=
  ((cs.dropWhile isWSChar).reverse.dropWhile isWSChar).reverse

/-- Single-pass worker for `String.prototype.split(/\s+/)`: `cur` is the
field under construction, `skipping` is true while inside a separator
whitespace run (whose field has already been emitted). -/
def swsGo (cur : List Char) (skipping : Bool) : List Char → List (List Char)
  | [] => [cur]
  | c :: rest =>
    if isWSChar c then
      if skipping then swsGo cur true rest
      else cur :: swsGo [] true rest
    else swsGo (cur ++ [c]) false rest

/-- JS `str.split(/\s+/)`: fields between maximal whitespace runs; a leading
or trailing run contributes an empty field, exactly as in JS. -/
def splitWSJS (cs : List Char) : List (List Char) :=
  swsGo [] false cs

/-- `estimateTokens` of `baseStrategy.ts`: `Math.ceil(text.length / 4)`. -/
def estimateTokens (cs : List Char) : ℕ :=
  (cs.length + 3) / 4

/-! JS fractional arithmetic is embedded as exact rationals.  The `ℚ`
field operations of this library are `@[irreducible]`, so the embedding
uses the following computable forms (each provably equal to the field
operation) to keep every definition kernel-evaluable on concrete input;
fractional literals are written `mkRat`. -/

/-- Rational multiplication (`= a * b`, see `qmul_eq`). -/
def qmul (a b : ℚ) : ℚ := mkRat (a.num * b.num) (a.den * b.den)

/-- Rational division (`= a / b`, see `qdiv_eq`). -/
def qdiv (a b : ℚ) : ℚ := Rat.divInt (a.num * b.den) (a.den * b.num)

/-- Rational addition (`= a + b`, see `qadd_eq`). -/
def qadd (a b : ℚ) : ℚ := mkRat (a.num * b.den + b.num * a.den) (a.den * b.den)

theorem qmul_eq (a b : ℚ) : qmul a b = a * b := (Rat.mul_eq_mkRat a b).symm

theorem qdiv_eq (a b : ℚ) : qdiv a b = a / b := (Rat.div_def' a b).symm

theorem qadd_eq (a b : ℚ) : qadd a b = a + b := (Rat.add_def' a b).symm

/-- `Array.prototype.join(' ')` on a list of strings. -/
def joinSp (l : List (List Char)) : List Char :=
  List.intercalate [' '] l

/-! ## SentenceSplitter (`BaseChunkingStrategy.splitIntoSentences`)

Tier 1 is the regex `/[^.!?…]+[.!?…]+["']?(?=\s|$)/g`.  Because the two
`+`-groups range over complementary character classes, backtracking never
shortens either greedy run: a match at a position is exactly a maximal
non-terminator run, a maximal terminator run, then either (a) end of input,
(b) a whitespace lookahead, or (c) a consumed quote whose successor is
whitespace or end.  `matchSentenceAt` decides that deterministically. -/

/-- Try the sentence regex anchored at the start of `cs`; on success return
the matched text and the unconsumed remainder. -/
def matchSentenceAt (cs : List Char) : Option (List Char × List Char) :=
  let pre := cs.takeWhile (fun c => !isTermChar c)
  let rest₁ := cs.dropWhile (fun c => !isTermChar c)
  let term := rest₁.takeWhile isTermChar
  let rest₂ := rest₁.dropWhile isTermChar
  match pre, term, rest₂ with
  | [], _, _ => none
  | _ :: _, [], _ => none
  | _ :: _, _ :: _, [] => some (pre ++ term, [])
  | _ :: _, _ :: _, c :: rest₃ =>
    if isWSChar c then some (pre ++ term, c :: rest₃)
    else if isQuoteChar c then
      match rest₃ with
      | [] => some (pre ++ term ++ [c], [])
      | d :: _ => if isWSChar d then some (pre ++ term ++ [c], rest₃) else none
    else none

theorem matchSentenceAt_spec {cs m r : List Char}
    (h : matchSentenceAt cs = some (m, r)) : cs = m ++ r ∧ r.length < cs.length := by
  unfold matchSentenceAt at h
  dsimp only at h
  have hsplit : cs.takeWhile (fun c => !isTermChar c) ++
      cs.dropWhile (fun c => !isTermChar c) = cs := List.takeWhile_append_dropWhile ..
  have hsplit₂ : (cs.dropWhile (fun c => !isTermChar c)).takeWhile isTermChar ++
      (cs.dropWhile (fun c => !isTermChar c)).dropWhile isTermChar =
      cs.dropWhile (fun c => !isTermChar c) := List.takeWhile_append_dropWhile ..
  generalize hP : cs.takeWhile (fun c => !isTermChar c) = pre at h hsplit
  generalize hD : cs.dropWhile (fun c => !isTermChar c) = rest₁ at h hsplit hsplit₂
  generalize hT : rest₁.takeWhile isTermChar = term at h hsplit₂
  generalize hR : rest₁.dropWhile isTermChar = rest₂ at h hsplit₂
  have key : cs = m ++ r ∧ m ≠ [] := by
    split at h
    · exact absurd h (by simp)
    · exact absurd h (by simp)
    · simp only [Option.some.injEq, Prod.mk.injEq] at h
      obtain ⟨hm, hrr⟩ := h
      subst hm; subst hrr
      refine ⟨?_, by simp⟩
      rw [← hsplit, ← hsplit₂]; simp
    · rename_i c rest₃
      split_ifs at h with h3 h4
      · simp only [Option.some.injEq, Prod.mk.injEq] at h
        obtain ⟨hm, hrr⟩ := h
        subst hm; subst hrr
        refine ⟨?_, by simp⟩
        rw [← hsplit, ← hsplit₂, List.append_assoc]
      · split at h
        all_goals try split_ifs at h with h5
        all_goals
          (simp only [Option.some.injEq, Prod.mk.injEq] at h
           obtain ⟨hm, hrr⟩ := h
           subst hm; subst hrr
           refine ⟨?_, by simp⟩
           rw [← hsplit, ← hsplit₂]
           simp)
  refine ⟨key.1, ?_⟩
  have : cs.length = m.length + r.length := by rw [key.1, List.length_append]
  have hmlen : 0 < m.length := List.length_pos.mpr key.2
  omega

theorem matchSentenceAt_consumes {cs m r : List Char}
    (h : matchSentenceAt cs = some (m, r)) : r.length < cs.length :=
  (matchSentenceAt_spec h).2

/-- Fuelled scanner for `text.matchAll(sentenceRegex)`: on a match emit it
and continue after it, otherwise advance one character.  Every step
consumes at least one character, so fuel `cs.length` is exact
(see `matchAllGo_congr`). -/
def matchAllGo : ℕ → List Char → List (List Char)
  | 0, _ => []
  | _ + 1, [] => []
  | fuel + 1, c :: rest =>
    match matchSentenceAt (c :: rest) with
    | some (m, r) => m :: matchAllGo fuel r
    | none => matchAllGo fuel rest

/-- All matches of the tier-1 sentence regex, scanning left to right
(`text.matchAll(sentenceRegex)`). -/
def matchAllSentences (cs : List Char) : List (List Char) :=
  matchAllGo cs.length cs

/-- The scanner's result does not depend on the fuel, as long as the fuel
covers the input length. -/
theorem matchAllGo_congr : ∀ (f₁ f₂ : ℕ) (cs : List Char),
    cs.length ≤ f₁ → cs.length ≤ f₂ → matchAllGo f₁ cs = matchAllGo f₂ cs := by
  intro f₁
  induction f₁ using Nat.strong_induction_on with
  | _ f₁ ih =>
    intro f₂ cs h₁ h₂
    rcases cs with _ | ⟨c, rest⟩
    · cases f₁ <;> cases f₂ <;> rfl
    · cases f₁ with
      | zero => simp at h₁
      | succ g₁ =>
        cases f₂ with
        | zero => simp at h₂
        | succ g₂ =>
          rw [matchAllGo, matchAllGo]
          rcases hm : matchSentenceAt (c :: rest) with _ | ⟨m, r⟩
          · dsimp only
            exact ih g₁ (by omega) g₂ rest (by simp at h₁; omega) (by simp at h₂; omega)
          · have hr := (matchSentenceAt_spec hm).2
            simp only [List.length_cons] at h₁ h₂ hr
            dsimp only
            rw [ih g₁ (by omega) g₂ r (by omega) (by omega)]

/-- Tier 2 worker: `text.split(/(?<=[.!?])\s+/)` — split on a maximal
whitespace run whose preceding character is `.`, `!` or `?`.  `lastTerm`
records whether the previously scanned character was such a terminator;
`skipping` is true inside a separator run (whose field has already been
emitted). -/
def simpleSplitGo (cur : List Char) (lastTerm skipping : Bool) :
    List Char → List (List Char)
  | [] => [cur]
  | c :: rest =>
    if skipping && isWSChar c then
      simpleSplitGo cur lastTerm true rest
    else if lastTerm && isWSChar c then
      cur :: simpleSplitGo [] false true rest
    else
      simpleSplitGo (cur ++ [c]) (isTerm3Char c) false rest

def simpleSplit (cs : List Char) : List (List Char) :=
  simpleSplitGo [] false false cs

/-- Tier 3 worker: `text.split(/\n+/)` — split on maximal runs of line
breaks, keeping empty leading/trailing fields (they are filtered by the
caller).  `skipping` is true inside a separator run. -/
def lineBreakSplitGo (cur : List Char) (skipping : Bool) : List Char → List (List Char)
  | [] => [cur]
  | c :: rest =>
    if c = '\n' then
      if skipping then lineBreakSplitGo cur true rest
      else cur :: lineBreakSplitGo [] true rest
    else lineBreakSplitGo (cur ++ [c]) false rest

def lineBreakSplit (cs : List Char) : List (List Char) :=
  lineBreakSplitGo [] false cs

/-- Backward scan from index `i` down to index `low`, returning the first
(i.e. largest) index satisfying `p`.  Mirrors the `for (let i = endIdx;
i >= endIdx - searchRange && i > startIdx; i--)` loops of
`forceSplitByCharCount`. -/
def scanDown (p : ℕ → Bool) (low : ℕ) : ℕ → Option ℕ
  | 0 => if low = 0 && p 0 then some 0 else none
  | i + 1 =>
    if i + 1 < low then none
    else if p (i + 1) then some (i + 1)
    else scanDown p low i

/-- The cut position chosen for one window of `forceSplitByCharCount`:
a sentence-end break point if one is found in the backward search range,
else a whitespace break point, else the raw `targetLength`. -/
def forceSplitCut (cs : List Char) (targetLength : ℕ) : ℕ :=
  let searchRange := targetLength / 5
  let low := max (targetLength - searchRange) 1
  match scanDown (fun i => isTermChar (cs.getD i ' ') &&
      (decide (cs.length ≤ i + 1) || isWSChar (cs.getD (i + 1) ' '))) low targetLength with
  | some i => i + 1
  | none =>
    match scanDown (fun i => isWSChar (cs.getD i ' ')) low targetLength with
    | some i => i + 1
    | none => targetLength

theorem forceSplitCut_pos (cs : List Char) (targetLength : ℕ) (h : targetLength ≠ 0) :
    1 ≤ forceSplitCut cs targetLength := by
  unfold forceSplitCut
  dsimp only
  split
  · omega
  · split <;> omega

/-- Fuelled worker for `forceSplitByCharCount` (each step consumes at
least one character, so fuel `cs.length` is exact). -/
def forceSplitGo (targetLength : ℕ) : ℕ → List Char → List (List Char)
  | 0, _ => []
  | _ + 1, [] => []
  | fuel + 1, c :: rest =>
    if (c :: rest).length ≤ targetLength then [trimChars (c :: rest)]
    else
      let endIdx := forceSplitCut (c :: rest) targetLength
      trimChars ((c :: rest).take endIdx) ::
        forceSplitGo targetLength fuel ((c :: rest).drop endIdx)

/-- `BaseChunkingStrategy.forceSplitByCharCount`.  Each step cuts a window
of at most `targetLength` characters (searching backward within 20 % of
the target for a sentence end, then for whitespace) and pushes the trimmed
window.  The source never calls it with `targetLength = 0` (the JS loop
would never advance); we return `[]` there. -/
def forceSplitByCharCount (cs : List Char) (targetLength : ℕ) : List (List Char) :=
  if targetLength = 0 then [] else forceSplitGo targetLength cs.length cs

/-- `BaseChunkingStrategy.splitIntoSentences`: regex pass, then (when ≤ 5
sentences are found on a non-trivial input) the simple-split fallback, the
line-break fallback, and finally the forced character-count split; all
paths except the forced one post-filter fragments shorter than 5 trimmed
characters. -/
def splitIntoSentences (text : List Char) : List (List Char) :=
  let s1 := matchAllSentences text
  if s1.length ≤ 5 ∧ 0 < (trimChars text).length then
    let simple := simpleSplit text
    let s2 := if s1.length < simple.length then simple else s1
    let s3 :=
      if s2.length ≤ 5 then
        let lb := (lineBreakSplit text).filter (fun l => decide (0 < (trimChars l).length))
        if s2.length < lb.length then lb else s2
      else s2
    if s3.length ≤ 5 then forceSplitByCharCount text 800
    else s3.filter (fun s => decide (5 ≤ (trimChars s).length))
  else s1.filter (fun s => decide (5 ≤ (trimChars s).length))

/-! ## ChunkPacker (`BaseChunkingStrategy.createChunksFromSentences`) -/

/-- `Math.ceil(a / b)` on integers (used with `b > 0` throughout). -/
def cdiv (a b : ℕ) : ℕ := (a + b - 1) / b

/-- Stable insertion used by `stableSort`: `a` goes after every element
`b` with `le b a`, so ties keep their original relative order. -/
def insertLe (le : α → α → Bool) (a : α) : List α → List α
  | [] => [a]
  | b :: t => if le b a then b :: insertLe le a t else a :: b :: t

/-- A stable sort (insertion sort).  JS `Array.prototype.sort` with a
consistent comparator `cmp` is specified to be stable, and a stable sort
is unique, so this models `sort(cmp)` with `le a b ⟺ cmp(a,b) ≤ 0`. -/
def stableSort (le : α → α → Bool) (l : List α) : List α :=
  l.foldl (fun acc x => insertLe le x acc) []

/-- The greedy packing loop of `createChunksFromSentences`: accumulate
sentences into `cur` until adding the next one would exceed the budget,
then emit `cur.join(' ')` and start a new chunk. -/
def createChunksAux (budget : ℕ) : List (List Char) → List (List Char) → ℕ → List (List Char)
  | [], cur, _ => if cur = [] then [] else [joinSp cur]
  | s :: rest, cur, curTok =>
    if budget < curTok + estimateTokens s ∧ cur ≠ [] then
      joinSp cur :: createChunksAux budget rest [s] (estimateTokens s)
    else
      createChunksAux budget rest (cur ++ [s]) (curTok + estimateTokens s)

/-- `BaseChunkingStrategy.createChunksFromSentences` (default budget 1500):
for more than 10 sentences the target size is recomputed to force at least
3 chunks, then sentences are packed greedily. -/
def createChunksFromSentences (sentences : List (List Char))
    (maxTokensPerChunk : ℕ) : List (List Char) :=
  let forceChunks := 10 < sentences.length
  let totalTokens := estimateTokens (joinSp sentences)
  let forcedChunkSize :=
    if forceChunks then cdiv totalTokens (max 3 (cdiv totalTokens maxTokensPerChunk))
    else maxTokensPerChunk
  createChunksAux forcedChunkSize sentences [] 0

/-! ## UniformSamplingStrategy -/

/-- The shared reduction factor of the Uniform and Bookend strategies:
`Math.max(1, totalTokens / (maxLength * 0.9))`.  Exact rationals stand in
for JS doubles; `maxLength = 0` (never used: the budget is a positive
configuration value) would be `Infinity` in JS but `1` here. -/
def reductionFactorOf (transcript : List Char) (maxLength : ℕ) : ℚ :=
  max 1 (qdiv (estimateTokens transcript : ℚ) (qmul (maxLength : ℚ) (mkRat 9 10)))

/-- The sampling walk of `UniformSamplingStrategy`: take every
`interval`-th sentence, plus the following sentence as context when the
window size is positive and the interval exceeds 2.  `fuel` bounds the
iteration count (the JS loop advances by `interval ≥ 1` each step). -/
def uniformSampleGo (sents : List (List Char)) (interval windowSize : ℕ) :
    ℕ → ℕ → List (List Char)
  | 0, _ => []
  | fuel + 1, i =>
    if i < sents.length then
      (if 0 < windowSize ∧ i + 1 < sents.length ∧ 2 < interval then
        [sents.getD i [], sents.getD (i + 1) []]
      else
        [sents.getD i []]) ++ uniformSampleGo sents interval windowSize fuel (i + interval)
    else []

/-- `UniformSamplingStrategy.chunkTranscript`. -/
def uniformChunkTranscript (transcript : List Char) (maxLength : ℕ) : List (List Char) :=
  let sentences := splitIntoSentences transcript
  if sentences.length ≤ 1 then [transcript]
  else
    let reductionFactor := reductionFactorOf transcript maxLength
    if reductionFactor < mkRat 3 2 then createChunksFromSentences sentences maxLength
    else
      let windowSize := min 3 (sentences.length / 10)
      let samplingInterval :=
        max 1 (qdiv (sentences.length : ℚ)
          (qdiv (sentences.length : ℚ) reductionFactor)).floor.toNat
      let sampled := uniformSampleGo sentences samplingInterval windowSize sentences.length 0
      createChunksFromSentences sampled maxLength

/-! ## BookendSamplingStrategy -/

/-- The middle-sampling walk of `BookendSamplingStrategy` over
`[middleStart, middleEnd)`: one sentence every `interval`, plus one context
sentence (skipping it on the next step) when `interval > 2`. -/
def bookendMiddleGo (sents : List (List Char)) (interval mEnd : ℕ) :
    ℕ → ℕ → List (List Char)
  | 0, _ => []
  | fuel + 1, i =>
    if i < mEnd then
      if 2 < interval ∧ i + 1 < mEnd then
        sents.getD i [] :: sents.getD (i + 1) [] ::
          bookendMiddleGo sents interval mEnd fuel (i + 1 + interval)
      else
        sents.getD i [] :: bookendMiddleGo sents interval mEnd fuel (i + interval)
    else []

/-- The sampled (unsorted) sentence list of `BookendSamplingStrategy`:
a 40 % bookend from the start, sparse middle samples, and a 40 % bookend
from the end. -/
def bookendSampled (sentences : List (List Char)) (reductionFactor : ℚ) :
    List (List Char) :=
  let totalSentencesToKeep := (qdiv (sentences.length : ℚ) reductionFactor).floor.toNat
  let bookendSize := (qmul (totalSentencesToKeep : ℚ) (mkRat 2 5)).floor.toNat
  let middleSentencesToKeep := totalSentencesToKeep - 2 * bookendSize
  let firstPart := sentences.take bookendSize
  let middlePart :=
    if 0 < middleSentencesToKeep ∧ 2 * bookendSize < sentences.length then
      let middleStart := bookendSize
      let middleEnd := sentences.length - bookendSize
      let middleRange := middleEnd - middleStart
      if 0 < middleRange then
        let samplingInterval := max 1 (middleRange / middleSentencesToKeep)
        bookendMiddleGo sentences samplingInterval middleEnd sentences.length middleStart
      else []
    else []
  let lastPart := sentences.drop (sentences.length - bookendSize)
  firstPart ++ middlePart ++ lastPart

/-- `BookendSamplingStrategy.chunkTranscript`.  The final
`sort((a, b) => sentences.indexOf(a) - sentences.indexOf(b))` is a stable
sort keyed on first-occurrence position, embedded as a stable merge sort. -/
def bookendChunkTranscript (transcript : List Char) (maxLength : ℕ) : List (List Char) :=
  let sentences := splitIntoSentences transcript
  if sentences.length ≤ 1 then [transcript]
  else
    let reductionFactor := reductionFactorOf transcript maxLength
    if reductionFactor < mkRat 3 2 then createChunksFromSentences sentences maxLength
    else
      let sampled := bookendSampled sentences reductionFactor
      let sorted := stableSort
        (fun a b => decide (sentences.indexOf a ≤ sentences.indexOf b)) sampled
      createChunksFromSentences sorted maxLength

/-- The bookend size (40 % of the kept-sentence budget,
`Math.floor(totalSentencesToKeep * 0.4)`) computed inside
`BookendSamplingStrategy.chunkTranscript`. -/
def bookendSizeOf (transcript : List Char) (maxLength : ℕ) : ℕ :=
  (qmul (((qdiv ((splitIntoSentences transcript).length : ℚ)
      (reductionFactorOf transcript maxLength)).floor.toNat : ℚ)) (mkRat 2 5)).floor.toNat

/-- The sampled sentences of the Bookend strategy, re-sorted into original
order — exactly the list packed into chunks on the sampling path. -/
def bookendSorted (transcript : List Char) (maxLength : ℕ) : List (List Char) :=
  let sentences := splitIntoSentences transcript
  stableSort (fun a b => decide (sentences.indexOf a ≤ sentences.indexOf b))
    (bookendSampled sentences (reductionFactorOf transcript maxLength))

/-! ## IntelligentSamplingStrategy -/

structure ScoredSentence where
  sentence : List Char
  score : ℚ
  index : ℕ
  deriving DecidableEq

instance : Inhabited ScoredSentence := ⟨⟨[], 0, 0⟩⟩

/-- The fixed keyword list of `IntelligentSamplingStrategy`. -/
def importantKeywords : List (List Char) :=
  ["summary".data, "conclusion".data, "therefore".data, "important".data,
   "key".data, "significant".data, "result".data, "finding".data,
   "main point".data, "takeaway".data, "highlight".data, "critical".data,
   "essential".data, "crucial".data, "finally".data, "in summary".data,
   "to summarize".data, "ultimately".data, "in conclusion".data,
   "altogether".data, "overall".data]

/-- Does `pat` occur at the head of `hay`? -/
def startsWithChars : List Char → List Char → Bool
  | _, [] => true
  | [], _ :: _ => false
  | h :: hs, p :: ps => h = p && startsWithChars hs ps

/-- JS `hay.indexOf(pat)` (substring search); `none` for "not included". -/
def indexOfSub : List Char → List Char → Option ℕ
  | [], pat => if pat = [] then some 0 else none
  | h :: t, pat =>
    if startsWithChars (h :: t) pat then some 0
    else (indexOfSub t pat).map (· + 1)

/-- Worker for `/["'].*["']/.test(s)`: `openQuote` records whether a quote
has been seen with no line terminator since (`.` does not match line
breaks, so a pair must sit on one line). -/
def hasQuotePairGo (openQuote : Bool) : List Char → Bool
  | [] => false
  | c :: rest =>
    if isQuoteChar c then
      if openQuote then true else hasQuotePairGo true rest
    else if c = '\n' || c = '\r' then hasQuotePairGo false rest
    else hasQuotePairGo openQuote rest

/-- JS `/["'].*["']/.test(s)`: two quote characters with no line
terminator between them. -/
def hasQuotePair (cs : List Char) : Bool :=
  hasQuotePairGo false cs

/-- The scoring rubric of `IntelligentSamplingStrategy.scoreSentences`
for one sentence at position `index` out of `n`. -/
def scoreSentence (n : ℕ) (sentence : List Char) (index : ℕ) : ℚ :=
  let lower := sentence.map Char.toLower
  let posScore : ℚ :=
    if (index : ℚ) < qmul (n : ℚ) (mkRat 3 20) then 3
    else if qmul (n : ℚ) (mkRat 17 20) < (index : ℚ) then mkRat 5 2
    else if qmul (n : ℚ) (mkRat 2 5) < (index : ℚ) ∧ (index : ℚ) < qmul (n : ℚ) (mkRat 3 5)
      then 1 else 0
  let wordCount := (splitWSJS sentence).length
  let lenScore : ℚ :=
    if 8 < wordCount ∧ wordCount < 30 then mkRat 3 2
    else if 30 ≤ wordCount ∧ wordCount < 60 then 1
    else 0
  let kwScore : ℚ := (importantKeywords.map (fun kw =>
    match indexOfSub lower kw with
    | none => (0 : ℚ)
    | some idx => if qdiv (idx : ℚ) (lower.length : ℚ) < mkRat 3 10 then 3 else 2)).foldl
    qadd 0
  let numScore : ℚ := if sentence.any (fun c => '0' ≤ c && c ≤ '9') then mkRat 3 2 else 0
  let quoteScore : ℚ := if hasQuotePair sentence then mkRat 3 2 else 0
  qadd (qadd (qadd (qadd posScore lenScore) kwScore) numScore) quoteScore

/-- `IntelligentSamplingStrategy.scoreSentences`. -/
def scoreSentences (sentences : List (List Char)) : List ScoredSentence :=
  sentences.enum.map (fun p => ⟨p.2, scoreSentence sentences.length p.2 p.1, p.1⟩)

/-- `IntelligentSamplingStrategy.calculateImportanceThreshold`: the score
at the cutoff when keeping the top `min(0.8, 2.0 / reductionFactor)`
fraction, sorted descending by score. -/
def calculateImportanceThreshold (scored : List ScoredSentence)
    (reductionFactor : ℚ) : ℚ :=
  let sortedByScore := stableSort (fun a b => decide (b.score ≤ a.score)) scored
  let percentToKeep := min (mkRat 4 5) (qdiv 2 reductionFactor)
  let numSentencesToKeep := (qmul (scored.length : ℚ) percentToKeep).ceil.toNat
  if sortedByScore.length ≤ numSentencesToKeep then 0
  else (sortedByScore.getD (numSentencesToKeep - 1) default).score

/-- The segment-building loop of `extractImportantSegments`; `tagged`
pairs a sentence with its importance flag, `fuel` bounds iteration (the
index advances by at least 1 per step). -/
def extractLoop (tagged : List (List Char × Bool)) :
    ℕ → ℕ → List (List Char) → Bool → List (List (List Char)) → List (List (List Char))
  | 0, _, cur, _, segs => if cur = [] then segs else segs ++ [cur]
  | fuel + 1, i, cur, inImp, segs =>
    let n := tagged.length
    if i < n then
      let item := tagged.getD i ([], false)
      let isBE := ((i : ℚ) < qmul (n : ℚ) (mkRat 3 20)) ∨ (qmul (n : ℚ) (mkRat 17 20) < (i : ℚ))
      if item.2 = true ∨ isBE then
        let lead := if inImp then [] else
          (List.range' (i - min i 3) (min i 3)).map (fun j => (tagged.getD j ([], false)).1)
        extractLoop tagged fuel (i + 1) (cur ++ lead ++ [item.1]) true segs
      else if inImp then
        let trail := (if i + 1 < n then [(tagged.getD (i + 1) ([], false)).1] else []) ++
          (if i + 2 < n then [(tagged.getD (i + 2) ([], false)).1] else [])
        extractLoop tagged fuel (i + 3) [] false (segs ++ [cur ++ [item.1] ++ trail])
      else
        extractLoop tagged fuel (i + 1) cur inImp segs
    else if cur = [] then segs else segs ++ [cur]

/-- `IntelligentSamplingStrategy.extractImportantSegments`. -/
def extractImportantSegments (scored : List ScoredSentence)
    (reductionFactor : ℚ) : List (List (List Char)) :=
  let sorted := stableSort (fun a b => decide (a.index ≤ b.index)) scored
  let threshold := calculateImportanceThreshold sorted reductionFactor
  let tagged := sorted.map (fun item => (item.sentence, decide (threshold ≤ item.score)))
  let segs := extractLoop tagged tagged.length 0 [] false []
  if segs = [] then
    let percentToKeep := min (mkRat 4 5) (qdiv 2 reductionFactor)
    let numSentencesToKeep := (qmul (tagged.length : ℚ) percentToKeep).ceil.toNat
    let top := (stableSort (fun a b => decide (a.index ≤ b.index))
        ((stableSort (fun a b => decide (b.score ≤ a.score)) scored).take
          numSentencesToKeep)).map (fun item => item.sentence)
    [top]
  else segs

/-- The sliding-window loop of `createLargerContextChunks`
(`for (i = 0; i < n; i += sentencesPerChunk - overlap)` with a `break`
once the window reaches the end). -/
def windowLoop (sents : List (List Char)) (spc overlap : ℕ) :
    ℕ → ℕ → List (List Char)
  | 0, _ => []
  | fuel + 1, i =>
    if i < sents.length then
      let e := min (i + spc) sents.length
      let chunk := joinSp ((sents.drop i).take (e - i))
      -- `chunk.trim().length > 0`, written as non-emptiness of the trim
      let pushed := if (trimChars chunk).isEmpty then [] else [chunk]
      if sents.length ≤ e then pushed
      else pushed ++ windowLoop sents spc overlap fuel (i + (spc - overlap))
    else []

/-- `IntelligentSamplingStrategy.createLargerContextChunks`; `minChunks`
is the optional third JS parameter. -/
def createLargerContextChunks (sentences : List (List Char)) (targetSize : ℕ)
    (minChunks : Option ℕ) : List (List Char) :=
  if sentences.length ≤ 10 then [joinSp sentences]
  else
    let totalTokens := estimateTokens (joinSp sentences)
    let calculatedChunks := max 1 (cdiv totalTokens targetSize)
    let numChunks := match minChunks with
      | some m => max calculatedChunks m
      | none => calculatedChunks
    let sentencesPerChunk := max 5 (cdiv sentences.length numChunks)
    let overlap := (qmul (sentencesPerChunk : ℚ) (mkRat 3 20)).ceil.toNat
    windowLoop sentences sentencesPerChunk overlap sentences.length 0

/-- `IntelligentSamplingStrategy.createForcedChunks`. -/
def createForcedChunks (sentences : List (List Char)) (targetSize : ℕ) :
    List (List Char) :=
  if 10 < sentences.length ∧
      3 ≤ sentences.length / (max 3 (cdiv (estimateTokens (joinSp sentences)) targetSize)) then
    createLargerContextChunks sentences targetSize
      (some (max 3 (cdiv (estimateTokens (joinSp sentences)) targetSize)))
  else if 5 < sentences.length then
    createLargerContextChunks sentences targetSize (some 2)
  else
    createLargerContextChunks sentences targetSize none

/-- `IntelligentSamplingStrategy.chunkTranscript`.  Note: `maxLength` is
accepted but never used by this strategy in the source. -/
def intelligentChunkTranscript (transcript : List Char) (maxLength : ℕ) :
    List (List Char) :=
  let sentences := splitIntoSentences transcript
  if sentences.length ≤ 1 then [transcript]
  else
    let totalTokens := estimateTokens transcript
    let maxTokensPerChunk := 4000
    let minimumChunking := 3000
    let targetChunkSize :=
      min 1500 (totalTokens / (max 3 (cdiv totalTokens minimumChunking)))
    if totalTokens ≤ minimumChunking then
      createForcedChunks sentences targetChunkSize
    else
      let scored := scoreSentences sentences
      let reductionFactor : ℚ := max (mkRat 11 10)
        (qdiv (totalTokens : ℚ)
          (qmul (targetChunkSize : ℚ) (cdiv totalTokens maxTokensPerChunk : ℚ)))
      let importantSegments := extractImportantSegments scored reductionFactor
      let sampledSentences := importantSegments.flatten
      createForcedChunks sampledSentences targetChunkSize

/-! ## ApiThrottler (`apiThrottler.ts`)

Times are epoch milliseconds (`ℤ`).  A `throttle` call arriving at time
`t` returns at a possibly later time (its sleeps are modelled by the
returned resume time).  The constructor's `setHours(24, 0, 0, 0)` is the
next local midnight; we place the local timezone at offset 0, so midnight
boundaries are the multiples of `dayMs`. -/

def dayMs : ℤ := 86400000

/-- Next midnight strictly after `t` (`new Date(); d.setHours(24,0,0,0)`). -/
def nextMidnight (t : ℤ) : ℤ := (t.ediv dayMs + 1) * dayMs

/-- Which calendar day an instant belongs to. -/
def dayOf (t : ℤ) : ℤ := t.ediv dayMs

structure ThrottleCfg where
  requestsPerMinute : ℕ
  tokensPerMinute : ℕ
  maxDailyRequests : ℕ

/-- The default free-tier configuration of the source. -/
def defaultThrottleCfg : ThrottleCfg := ⟨15, 1000000, 1500⟩

structure ThrottleState where
  requestQueue : List ℤ
  tokenQueue : List ℤ
  dailyRequests : ℕ
  dailyResetTime : ℤ

/-- The state built by the `ApiThrottler` constructor at time `t0`. -/
def mkThrottler (t0 : ℤ) : ThrottleState :=
  ⟨[], [], 0, nextMidnight t0⟩

/-- `ApiThrottler.checkDailyReset` at current time `now`. -/
def checkDailyReset (s : ThrottleState) (now : ℤ) : ThrottleState :=
  if s.dailyResetTime ≤ now then
    { s with dailyRequests := 0, dailyResetTime := nextMidnight now }
  else s

/-- The daily-cap gate at the top of `throttle`: reset check, then (at the
cap) sleep until the reset instant, zero the counter and move the reset
instant to the following midnight.  Returns the state and the time at
which execution continues. -/
def afterDaily (cfg : ThrottleCfg) (s : ThrottleState) (t : ℤ) : ThrottleState × ℤ :=
  let s₁ := checkDailyReset s t
  if cfg.maxDailyRequests ≤ s₁.dailyRequests then
    ({ s₁ with dailyRequests := 0, dailyResetTime := nextMidnight s₁.dailyResetTime },
      s₁.dailyResetTime)
  else (s₁, t)

/-- `this.requestQueue.filter(ts => ts > now - 60000)`. -/
def pruneQueue (q : List ℤ) (now : ℤ) : List ℤ :=
  q.filter (fun x => decide (now - 60000 < x))

/-- The resume time after the requests-per-minute check: when the pruned
queue has reached the cap, sleep `60000 - (now - oldest)` ms, i.e. resume
at `oldest + 60000`.  (With an empty queue at cap 0 the JS wait is `NaN`,
which `setTimeout` treats as 0.) -/
def rpmResumeTime (cfg : ThrottleCfg) (rq : List ℤ) (now : ℤ) : ℤ :=
  if cfg.requestsPerMinute ≤ rq.length then
    match rq with
    | [] => now
    | oldest :: _ => oldest + 60000
  else now

/-- `ApiThrottler.throttle(estimatedTokens)` arriving at time `t`:
daily gate, prune both queues, requests-per-minute wait, then a flat
60-second wait if the estimated cost would exceed the token cap.
Returns the updated state and the time at which `throttle` returns. -/
def throttle (cfg : ThrottleCfg) (s : ThrottleState) (t : ℤ) (estimatedTokens : ℕ) :
    ThrottleState × ℤ :=
  let d := afterDaily cfg s t
  let rq := pruneQueue d.1.requestQueue d.2
  let tq := pruneQueue d.1.tokenQueue d.2
  let t₂ := rpmResumeTime cfg rq d.2
  let t₃ := if cfg.tokensPerMinute < tq.length + estimatedTokens then t₂ + 60000 else t₂
  ({ d.1 with requestQueue := rq, tokenQueue := tq }, t₃)

/-- `ApiThrottler.recordApiCall(tokenCount)` at time `t`: append the
request timestamp, one token timestamp per token, bump the daily count. -/
def recordApiCall (s : ThrottleState) (t : ℤ) (tokenCount : ℕ) : ThrottleState :=
  { s with
    requestQueue := s.requestQueue ++ [t],
    tokenQueue := s.tokenQueue ++ List.replicate tokenCount t,
    dailyRequests := s.dailyRequests + 1 }

/-- One `throttle`/`recordApiCall` pair of a sequential client: the client
waits `wait` ms after the previous call's record before calling
`throttle(est)`, lets the API call take `gap` ms, then records `used`
tokens. -/
structure ThrottleReq where
  wait : ℕ
  est : ℕ
  gap : ℕ
  used : ℕ

/-- Run a sequence of `throttle`/`recordApiCall` pairs against one
throttler, starting from state `s` at time `t`; returns the final state
and the list of recorded request timestamps (in order). -/
def runPairs (cfg : ThrottleCfg) (s : ThrottleState) (t : ℤ) :
    List ThrottleReq → ThrottleState × List ℤ
  | [] => (s, [])
  | r :: rs =>
    let a := t + r.wait
    let th := throttle cfg s a r.est
    let rt := th.2 + r.gap
    let s₂ := recordApiCall th.1 rt r.used
    let rest := runPairs cfg s₂ rt rs
    (rest.1, rt :: rest.2)

/-- Number of recorded timestamps inside the trailing 60-second window
ending at `T` (window `(T - 60000, T]`). -/
def windowCount (recs : List ℤ) (T : ℤ) : ℕ :=
  (recs.filter (fun x => decide (T - 60000 < x ∧ x ≤ T))).length

/-- Number of recorded timestamps on calendar day `d`. -/
def recordsOnDay (recs : List ℤ) (d : ℤ) : ℕ :=
  (recs.filter (fun x => decide (dayOf x = d))).length

/-! ## Per-chunk retry (`ChunkSummarizerNode.summarizeChunkWithRetry`)

The generative backend is a function from the attempt number (1-based)
to a result.  The model returns the number of attempts actually made
together with the outcome; `Except.error none` is the
`new Error("Failed to summarize …")` thrown when `maxRetries = 0`
leaves `lastError` undefined. -/

def retryGo (gen : ℕ → Except String String) :
    ℕ → ℕ → Option String → ℕ × Except (Option String) String
  | 0, attemptCount, lastError => (attemptCount, .error lastError)
  | remaining + 1, attemptCount, lastError =>
    let a := attemptCount + 1
    match gen a with
    | .ok s => (a, .ok s)
    | .error e => retryGo gen remaining a (some e)

/-- `summarizeChunkWithRetry`, instrumented with the attempt count (first
component).  The loop counter is the number of remaining attempts
`maxRetries - attemptCount`, so the guard `attemptCount < maxRetries`
is the pattern `remaining + 1`. -/
def summarizeChunkWithRetry (gen : ℕ → Except String String) (maxRetries : ℕ) :
    ℕ × Except (Option String) String :=
  retryGo gen maxRetries 0 none

/-! ## Map stage (`ChunkSummarizerNode.exec`) -/

/-- `Math.min(maxConcurrent, Math.max(2, Math.ceil(6 / chunks.length)))`. -/
def actualConcurrency (maxConcurrent chunkCount : ℕ) : ℕ :=
  min maxConcurrent (max 2 (cdiv 6 chunkCount))

/-- The batch partition of the map stage: slices of `ac` consecutive
chunks.  The source's loop `i += actualConcurrency` never advances when
`ac = 0` (unreachable: `ac ≥ min maxConcurrent 2`); we return `[]` there. -/
def batchifyGo (ac : ℕ) : ℕ → List α → List (List α)
  | 0, _ => []
  | _ + 1, [] => []
  | fuel + 1, x :: xs => (x :: xs).take ac :: batchifyGo ac fuel ((x :: xs).drop ac)

def batchify (ac : ℕ) (l : List α) : List (List α) :=
  if ac = 0 then [] else batchifyGo ac l.length l

/-- The batches the map stage runs, in order
(`chunks.slice(i, i + actualConcurrency)` for `i = 0, ac, 2·ac, …`). -/
def mapStageBatches (maxConcurrent : ℕ) (chunks : List α) : List (List α) :=
  batchify (actualConcurrency maxConcurrent chunks.length) chunks

/-- `Promise.all(batch.map((chunk, batchIndex) => f chunk (i + batchIndex)))`
with a fallible summarizer: all must succeed, results in batch order. -/
def runBatch (f : α → ℕ → Except String β) (off : ℕ) :
    List α → Except String (List β)
  | [] => .ok []
  | c :: rest => do
    let s ← f c off
    let rs ← runBatch f (off + 1) rest
    .ok (s :: rs)

/-- The sequential batch loop of `exec`: each batch is fully awaited
before the next one starts; summaries are appended in batch order.
`ac = 0` is the unreachable nonterminating JS loop, modelled as an
error. -/
def runBatchesGo (f : α → ℕ → Except String β) (ac : ℕ) :
    ℕ → ℕ → List α → Except String (List β)
  | 0, _, _ => .ok []
  | _ + 1, _, [] => .ok []
  | fuel + 1, off, x :: xs => do
    let rs ← runBatch f off ((x :: xs).take ac)
    let rest ← runBatchesGo f ac fuel (off + ac) ((x :: xs).drop ac)
    .ok (rs ++ rest)

/-- `ChunkSummarizerNode.exec(chunks)`: reject an absent/empty chunk
array, compute the adaptive concurrency, and process the batches
sequentially (each batch fully awaited before the next starts).
`ac = 0` is the unreachable nonterminating JS loop, modelled as an
error. -/
def execMapStage (f : α → ℕ → Except String β) (maxConcurrent : ℕ)
    (chunks : List α) : Except String (List β) :=
  if chunks.isEmpty then .error "No chunks available for summarization"
  else if actualConcurrency maxConcurrent chunks.length = 0 then
    .error "nonterminating batch loop"
  else runBatchesGo f (actualConcurrency maxConcurrent chunks.length) chunks.length 0 chunks

/-- Sequential execution of a list of ready-made batches: each batch is
run (and fully awaited) before the next batch starts, offsets advancing
by the batch lengths. -/
def runBatchSeq (f : α → ℕ → Except String β) : ℕ → List (List α) → Except String (List β)
  | _, [] => .ok []
  | off, b :: bs => do
    let rs ← runBatch f off b
    let rest ← runBatchSeq f (off + b.length) bs
    .ok (rs ++ rest)

/-! ## TranscriptValidatorNode (`validator.ts`) -/

/-- The validation outcome; each rejecting constructor corresponds to one
distinguishable reason string of `exec` (carrying its interpolated
datum). -/
inductive ValidationOutcome
  | valid : ValidationOutcome
  | noTranscript : ValidationOutcome
  | tooShort : ℕ → ValidationOutcome
  | tooFewWords : ℕ → ValidationOutcome
  | lowQuality : ℚ → ValidationOutcome
  deriving DecidableEq

/-- `TranscriptValidatorNode.exec`.  `none`/empty string is the falsy
`!transcript` check; the "alphanumeric" count is the length after
`replace(/[^a-zA-Z0-9\s]/g, '')`, i.e. it keeps whitespace as well. -/
def validateTranscript (minTranscriptLength : ℕ) (transcript : Option (List Char)) :
    ValidationOutcome :=
  match transcript with
  | none => .noTranscript
  | some t =>
    if t = [] then .noTranscript
    else if t.length < minTranscriptLength then .tooShort t.length
    else
      let words := (splitWSJS t).length
      if words < 20 then .tooFewWords words
      else
        let alphanumericChars := (t.filter (fun c => isAlnumChar c || isWSChar c)).length
        let ratio : ℚ := qdiv (alphanumericChars : ℚ) (t.length : ℚ)
        if ratio < mkRat 1 2 then .lowQuality ratio
        else .valid

/-! ## Concrete inputs used by counterexamples and witnesses -/

/-- A word of `k` letters. -/
def wordZ (k : ℕ) : List Char := List.replicate k 'z'

/-- A 124-character body of 9 words (scores the 8-to-30-word length bonus). -/
def body9 : List Char := wordZ 20 ++ (List.replicate 8 (' ' :: wordZ 12)).flatten

/-- A 124-character body of 5 words (no length bonus). -/
def body5 : List Char := wordZ 24 ++ (List.replicate 4 (' ' :: wordZ 24)).flatten

/-- `body5` with its first character replaced by the marker `X`. -/
def body5X : List Char := ('X' :: wordZ 23) ++ (List.replicate 4 (' ' :: wordZ 24)).flatten

/-- Which sentences of the C3 transcript are 9-word sentences. -/
def c3Nine (i : ℕ) : Bool := i < 15 || (41 ≤ i && i ≤ 59) || (60 ≤ i && i ≤ 78) || (86 ≤ i)

/-- The body of sentence `i` of the C3 transcript. -/
def c3Body (i : ℕ) : List Char :=
  if i = 25 then body5X else if c3Nine i then body9 else body5

/-- The C3 transcript from sentence `i` on: sentences separated by `. `,
the last one ending in `.`. -/
def c3From : ℕ → List Char
  | i =>
    if h : i < 99 then c3Body i ++ '.' :: ' ' :: c3From (i + 1)
    else c3Body 99 ++ ['.']
  termination_by i => 99 - i

/-- A 12599-character transcript of 100 sentences (≈ 3150 estimated
tokens); sentence 25 carries the unique marker character `X`. -/
def c3Transcript : List Char := c3From 0

/-- The sentences the splitter finds in `c3Transcript` (each sentence
after the first keeps the leading space left by the regex). -/
def c3Sentence (i : ℕ) : List Char :=
  if i = 0 then c3Body 0 ++ ['.'] else ' ' :: c3Body i ++ ['.']

def c3Sentences : List (List Char) := (List.range 100).map c3Sentence

/-- The important segments the Intelligent strategy extracts from
`c3Sentences`: sentences 0–17, 38–81 and 83–99; sentences 18–37 and 82
are dropped. -/
def c3Segments : List (List (List Char)) :=
  [(List.range' 0 18).map c3Sentence,
   (List.range' 38 44).map c3Sentence,
   (List.range' 83 17).map c3Sentence]

def c3Sampled : List (List Char) := c3Segments.flatten

/-- 12 sentences of 30 characters each (359 characters, ≈ 90 tokens). -/
def c8Transcript : List Char :=
  ((List.range 12).map (fun i =>
    List.replicate 27 'w' ++ [Char.ofNat (97 + i)] ++ ('.' :: [' ']))).flatten.dropLast

/-- A small seven-sentence transcript whose reduction factor is far below
1.5 at the default budget. -/
def c3SmallTranscript : List Char :=
  "Alpha one x. Bravo two x. Charlie three x. Delta four x. Echo five x. Foxtrot six x. Golf seven x.".data

/-- 201 characters `a! a! … a!`: 67 words, strict alphanumeric ratio 1/3,
alphanumeric-or-whitespace ratio 2/3. -/
def c4Example : List Char := (List.replicate 67 ('a' :: ['!', ' '])).flatten

/-- 801 letters with no sentence boundary: drives the splitter into the
forced character-count split, whose final fragment has a single letter. -/
def c9Example : List Char := List.replicate 801 'z'

/-- Daily cap of one request: the first call throttles before midnight of
day 0 but sleeps 60 s across it (token cap), recording on day 1; the
second call arrives on day 1 after the counter has reset and records on
day 1 as well. -/
def c1Cfg : ThrottleCfg := ⟨15, 1000000, 1⟩

def c1Trace : List ThrottleReq := [⟨86370000, 2000000, 0, 0⟩, ⟨60000, 0, 0, 0⟩]

/-- A backend that fails on the first two attempts and then succeeds. -/
def c2Gen : ℕ → Except String String :=
  fun i => if i < 3 then .error "boom" else .ok "done"

/-- A backend that fails on every attempt. -/
def c2GenFail : ℕ → Except String String := fun _ => .error "boom"

/-- A summarizer whose output encodes both the chunk and its index. -/
def c56Fun : ℕ → ℕ → Except String ℕ := fun n i => .ok (n + 10 * i)

/-- Six chunks: adaptive concurrency at `maxConcurrent = 3` is 2. -/
def c56Chunks : List ℕ := [10, 11, 12, 13, 14, 15]

/-- A tiny token budget so that eleven in-window tokens exceed the cap. -/
def c7Cfg : ThrottleCfg := ⟨15, 10, 100⟩

/-- Eleven token timestamps recorded at 1 s, reset pending at midnight. -/
def c7State : ThrottleState := ⟨[], List.replicate 11 1000, 0, 86400000⟩

/-! ## Helper lemmas: joining with single spaces -/

theorem joinSp_nil : joinSp [] = [] := rfl

theorem joinSp_single (a : List Char) : joinSp [a] = a := by
  simp [joinSp, List.intercalate, List.intersperse]

theorem joinSp_cons (a : List Char) (l : List (List Char)) (h : l ≠ []) :
    joinSp (a :: l) = a ++ ' ' :: joinSp l := by
  cases l with
  | nil => simp at h
  | cons b t => simp [joinSp, List.intercalate, List.intersperse]

theorem joinSp_append (l₁ l₂ : List (List Char)) (h₁ : l₁ ≠ []) (h₂ : l₂ ≠ []) :
    joinSp (l₁ ++ l₂) = joinSp l₁ ++ ' ' :: joinSp l₂ := by
  induction l₁ with
  | nil => simp at h₁
  | cons a t ih =>
    cases t with
    | nil => simpa [joinSp_single] using joinSp_cons a l₂ h₂
    | cons b u =>
      rw [List.cons_append, joinSp_cons a ((b :: u) ++ l₂) (by simp),
        joinSp_cons a (b :: u) (by simp), ih (by simp)]
      simp

theorem createChunksAux_ne_nil (budget : ℕ) (rest : List (List Char))
    (cur : List (List Char)) (curTok : ℕ) (h : cur ≠ []) :
    createChunksAux budget rest cur curTok ≠ [] := by
  induction rest generalizing cur curTok with
  | nil => simp [createChunksAux, h]
  | cons s t ih =>
    rw [createChunksAux]
    split
    · simp
    · exact ih (cur ++ [s]) _ (by simp)

theorem createChunksAux_join (budget : ℕ) (rest : List (List Char)) :
    ∀ (cur : List (List Char)) (curTok : ℕ), cur ≠ [] →
      joinSp (createChunksAux budget rest cur curTok) = joinSp (cur ++ rest) := by
  induction rest with
  | nil => intro cur curTok h; simp [createChunksAux, h, joinSp_single]
  | cons s t ih =>
    intro cur curTok h
    rw [createChunksAux]
    split
    · rw [joinSp_cons _ _ (createChunksAux_ne_nil budget t [s] _ (by simp)),
        ih [s] _ (by simp), List.singleton_append,
        ← joinSp_append cur (s :: t) h (by simp)]
    · rw [ih (cur ++ [s]) _ (by simp), List.append_assoc]
      simp

theorem createChunksAux_join_start (budget : ℕ) (l : List (List Char)) :
    joinSp (createChunksAux budget l [] 0) = joinSp l := by
  cases l with
  | nil => rfl
  | cons s t =>
    rw [createChunksAux,
      if_neg (by simp : ¬(budget < 0 + estimateTokens s ∧ ([] : List (List Char)) ≠ []))]
    simpa using createChunksAux_join budget t [s] _ (by simp)

/-- `createChunksFromSentences` is content-preserving: the chunks joined
with single spaces are exactly the sentences joined with single spaces. -/
theorem createChunksFromSentences_join (sentences : List (List Char))
    (maxTokensPerChunk : ℕ) :
    joinSp (createChunksFromSentences sentences maxTokensPerChunk) = joinSp sentences := by
  unfold createChunksFromSentences
  exact createChunksAux_join_start _ _

/-! ## Claim C10 -/

/-- C10: for every array of sentences and every token target, the greedy
packer `createChunksFromSentences` is content-preserving: joining the
returned chunks in order with single spaces yields exactly the input
sentences joined with single spaces — every sentence appears exactly
once, in original order, with no duplication or loss. -/
theorem C10_createChunksFromSentences_content_preserving
    (sentences : List (List Char)) (targetTokens : ℕ) :
    joinSp (createChunksFromSentences sentences targetTokens) = joinSp sentences :=
  createChunksFromSentences_join sentences targetTokens

/-! ## Symbolic evaluation of the splitter on the C3 transcript

The C3 transcript is ~12600 characters, too deep for a single kernel
evaluation, so the splitter's behaviour on it is established
compositionally, one 126-character sentence at a time. -/

theorem takeWhile_append_all {p : Char → Bool} {l₁ l₂ : List Char}
    (h : ∀ c ∈ l₁, p c = true) :
    (l₁ ++ l₂).takeWhile p = l₁ ++ l₂.takeWhile p := by
  induction l₁ with
  | nil => simp
  | cons a t ih =>
    simp only [List.cons_append, List.takeWhile_cons, h a (by simp), if_true]
    rw [ih (fun c hc => h c (by simp [hc]))]

theorem dropWhile_append_all {p : Char → Bool} {l₁ l₂ : List Char}
    (h : ∀ c ∈ l₁, p c = true) :
    (l₁ ++ l₂).dropWhile p = l₂.dropWhile p := by
  induction l₁ with
  | nil => simp
  | cons a t ih =>
    simp only [List.cons_append, List.dropWhile_cons, h a (by simp), if_true]
    exact ih (fun c hc => h c (by simp [hc]))

theorem isWSChar_not_term {c : Char} (h : isWSChar c = true) : isTermChar c = false := by
  simp only [isWSChar, Bool.or_eq_true, decide_eq_true_eq] at h
  rcases h with ((((h | h) | h) | h) | h) | h <;> subst h <;> rfl

/-- The sentence regex on `pre ++ "." ++ rest` where `pre` is nonempty
terminator-free text and `rest` is empty or starts with whitespace:
matches `pre ++ "."` and leaves `rest`. -/
theorem matchSentenceAt_clean {pre rest : List Char} (hpre : pre ≠ [])
    (hall : ∀ c ∈ pre, isTermChar c = false)
    (hrest : rest = [] ∨ ∃ d t, rest = d :: t ∧ isWSChar d = true) :
    matchSentenceAt (pre ++ '.' :: rest) = some (pre ++ ['.'], rest) := by
  have htake : (pre ++ '.' :: rest).takeWhile (fun c => !isTermChar c) = pre := by
    rw [takeWhile_append_all (p := fun c => !isTermChar c)
      (fun c hc => by simp [hall c hc])]
    simp [List.takeWhile_cons, isTermChar]
  have hdrop : (pre ++ '.' :: rest).dropWhile (fun c => !isTermChar c) = '.' :: rest := by
    rw [dropWhile_append_all (p := fun c => !isTermChar c)
      (fun c hc => by simp [hall c hc])]
    simp [List.dropWhile_cons, isTermChar]
  have hterm : ('.' :: rest).takeWhile isTermChar = ['.'] ∧
      ('.' :: rest).dropWhile isTermChar = rest := by
    rcases hrest with h | ⟨d, t, hdt, hws⟩
    · subst h; constructor <;> rfl
    · subst hdt
      have hd : isTermChar d = false := isWSChar_not_term hws
      constructor
      · rw [List.takeWhile_cons, if_pos (show isTermChar '.' = true from rfl),
          List.takeWhile_cons, if_neg (by simp [hd])]
      · rw [List.dropWhile_cons, if_pos (show isTermChar '.' = true from rfl),
          List.dropWhile_cons, if_neg (by simp [hd])]
  unfold matchSentenceAt
  dsimp only
  rw [htake, hdrop, hterm.1, hterm.2]
  rcases hrest with h | ⟨d, t, hdt, hws⟩
  · subst h
    rcases pre with _ | ⟨a, t⟩
    · simp at hpre
    · rfl
  · subst hdt
    rcases pre with _ | ⟨a, t'⟩
    · simp at hpre
    · simp [hws]

theorem matchAllSentences_cons_of {cs m r : List Char}
    (h : matchSentenceAt cs = some (m, r)) :
    matchAllSentences cs = m :: matchAllSentences r := by
  have hlt := (matchSentenceAt_spec h).2
  rcases hcs : cs with _ | ⟨c, rest⟩
  · subst hcs
    simp at hlt
  · subst hcs
    unfold matchAllSentences
    show matchAllGo (rest.length + 1) (c :: rest) = m :: matchAllGo r.length r
    rw [matchAllGo, h]
    dsimp only
    congr 1
    exact matchAllGo_congr rest.length r.length r
      (by simp only [List.length_cons] at hlt; omega) le_rfl

set_option maxRecDepth 8000 in
theorem c3Body_spec (i : ℕ) :
    c3Body i ≠ [] ∧ (∀ c ∈ c3Body i, isTermChar c = false) ∧ (c3Body i).length = 124 := by
  unfold c3Body
  split
  · exact ⟨by decide, fun c hc => by
      simpa using List.all_eq_true.mp (by decide : body5X.all (fun c => !isTermChar c)) c hc,
      by decide⟩
  · split
    · exact ⟨by decide, fun c hc => by
        simpa using List.all_eq_true.mp (by decide : body9.all (fun c => !isTermChar c)) c hc,
        by decide⟩
    · exact ⟨by decide, fun c hc => by
        simpa using List.all_eq_true.mp (by decide : body5.all (fun c => !isTermChar c)) c hc,
        by decide⟩

theorem c3From_99 : c3From 99 = c3Body 99 ++ ['.'] := by
  rw [c3From]
  simp

theorem c3From_lt {i : ℕ} (h : i < 99) :
    c3From i = c3Body i ++ '.' :: ' ' :: c3From (i + 1) := by
  rw [c3From]
  simp [h]

theorem c3_matchAll_tail : ∀ k i, i + k = 99 → 1 ≤ i →
    matchAllSentences (' ' :: c3From i) = (List.range' i (100 - i)).map c3Sentence := by
  intro k
  induction k with
  | zero =>
    intro i hi _
    have : i = 99 := by omega
    subst this
    rw [c3From_99]
    have hm : matchSentenceAt ((' ' :: c3Body 99) ++ '.' :: ([] : List Char)) =
        some ((' ' :: c3Body 99) ++ ['.'], []) :=
      matchSentenceAt_clean (by simp)
        (by
          intro c hc
          rcases List.mem_cons.mp hc with h | h
          · subst h; rfl
          · exact (c3Body_spec 99).2.1 c h)
        (Or.inl rfl)
    have hsh : (' ' :: (c3Body 99 ++ ['.'])) = (' ' :: c3Body 99) ++ '.' :: [] := by simp
    rw [hsh, matchAllSentences_cons_of hm]
    simp [matchAllSentences, matchAllGo, c3Sentence, List.range']
  | succ k ih =>
    intro i hik hi
    have hlt : i < 99 := by omega
    rw [c3From_lt hlt]
    have hm : matchSentenceAt ((' ' :: c3Body i) ++ '.' :: (' ' :: c3From (i + 1))) =
        some ((' ' :: c3Body i) ++ ['.'], ' ' :: c3From (i + 1)) :=
      matchSentenceAt_clean (by simp)
        (by
          intro c hc
          rcases List.mem_cons.mp hc with h | h
          · subst h; rfl
          · exact (c3Body_spec i).2.1 c h)
        (Or.inr ⟨' ', c3From (i + 1), rfl, rfl⟩)
    have hshape : (' ' :: (c3Body i ++ '.' :: ' ' :: c3From (i + 1))) =
        (' ' :: c3Body i) ++ '.' :: (' ' :: c3From (i + 1)) := by simp
    rw [hshape, matchAllSentences_cons_of hm, ih (i + 1) (by omega) (by omega)]
    have hrange : List.range' i (100 - i) = i :: List.range' (i + 1) (100 - (i + 1)) := by
      have h100 : 100 - i = (100 - (i + 1)) + 1 := by omega
      rw [h100, List.range'_succ]
    rw [hrange, List.map_cons]
    congr 1
    unfold c3Sentence
    rw [if_neg (by omega)]

theorem c3_matchAll : matchAllSentences c3Transcript = c3Sentences := by
  unfold c3Transcript
  rw [c3From_lt (by omega)]
  have hm : matchSentenceAt (c3Body 0 ++ '.' :: (' ' :: c3From 1)) =
      some (c3Body 0 ++ ['.'], ' ' :: c3From 1) :=
    matchSentenceAt_clean (c3Body_spec 0).1 (c3Body_spec 0).2.1
      (Or.inr ⟨' ', c3From 1, rfl, rfl⟩)
  rw [matchAllSentences_cons_of hm, c3_matchAll_tail 98 1 (by omega) (by omega)]
  unfold c3Sentences
  rw [List.range_eq_range', show List.range' 0 100 = 0 :: List.range' 1 99 from
    List.range'_succ .., List.map_cons]
  congr 1

/-- The generic "many clean sentences" path of the splitter: with more
than five regex matches, the fallbacks are skipped and only the 5-trimmed-
character filter runs. -/
theorem splitIntoSentences_of_many {text : List Char} {sents : List (List Char)}
    (hm : matchAllSentences text = sents) (h5 : 5 < sents.length)
    (hall : ∀ s ∈ sents, decide (5 ≤ (trimChars s).length) = true) :
    splitIntoSentences text = sents := by
  unfold splitIntoSentences
  rw [hm, if_neg (fun hcon => by omega), List.filter_eq_self.mpr hall]

set_option maxRecDepth 8000 in
theorem c3_split : splitIntoSentences c3Transcript = c3Sentences := by
  refine splitIntoSentences_of_many c3_matchAll (by simp [c3Sentences]) ?_
  decide

theorem c3From_length : ∀ (k i : ℕ), i + k = 99 → (c3From i).length = 126 * k + 125 := by
  intro k
  induction k with
  | zero =>
    intro i h
    have hi : i = 99 := by omega
    subst hi
    rw [c3From_99]
    simp [(c3Body_spec 99).2.2]
  | succ k ih =>
    intro i h
    rw [c3From_lt (by omega)]
    simp only [List.length_append, List.length_cons, (c3Body_spec i).2.2,
      ih (i + 1) (by omega)]
    ring

theorem c3_tokens : estimateTokens c3Transcript = 3150 := by
  unfold estimateTokens c3Transcript
  rw [c3From_length 99 0 (by omega)]

theorem joinSp_length : ∀ (l : List (List Char)), l ≠ [] →
    (joinSp l).length = (l.map List.length).sum + (l.length - 1) := by
  intro l h
  induction l with
  | nil => simp at h
  | cons a t ih =>
    cases t with
    | nil => simp [joinSp_single]
    | cons b u =>
      rw [joinSp_cons a (b :: u) (by simp), List.length_append]
      have := ih (by simp)
      simp only [List.length_cons, List.map_cons, List.sum_cons] at this ⊢
      omega

set_option maxRecDepth 8000 in
theorem c3_sampled_tokens : estimateTokens (joinSp c3Sampled) = 2508 := by
  unfold estimateTokens
  rw [joinSp_length c3Sampled (by decide)]
  rw [show (c3Sampled.map List.length).sum = 9953 from by decide,
    show c3Sampled.length = 79 from by decide]

set_option maxRecDepth 40000 in
theorem c3_extract :
    extractImportantSegments (scoreSentences c3Sentences) 3 = c3Segments := by
  decide

/-- The sampling path of the Intelligent strategy, with the splitter
result and token estimate abstracted. -/
theorem intelligentChunkTranscript_sampling {transcript : List Char}
    {sents : List (List Char)} {tt : ℕ} (maxLength : ℕ)
    (hs : splitIntoSentences transcript = sents)
    (he : estimateTokens transcript = tt)
    (h1 : ¬ sents.length ≤ 1) (h2 : ¬ tt ≤ 3000) :
    intelligentChunkTranscript transcript maxLength =
      createForcedChunks
        ((extractImportantSegments (scoreSentences sents)
          (max (mkRat 11 10)
            (qdiv (tt : ℚ)
              (qmul ((min 1500 (tt / max 3 (cdiv tt 3000)) : ℕ) : ℚ)
                ((cdiv tt 4000 : ℕ) : ℚ))))).flatten)
        (min 1500 (tt / max 3 (cdiv tt 3000))) := by
  unfold intelligentChunkTranscript
  rw [hs, he, if_neg h1, if_neg h2]

set_option maxRecDepth 8000 in
theorem c3_intelligent_step1 :
    intelligentChunkTranscript c3Transcript 300000 = createForcedChunks c3Sampled 1050 := by
  rw [intelligentChunkTranscript_sampling 300000 c3_split c3_tokens
    (by simp [c3Sentences]) (by omega)]
  rw [show min 1500 (3150 / max 3 (cdiv 3150 3000)) = 1050 from by decide]
  rw [show (max (mkRat 11 10)
      (qdiv ((3150 : ℕ) : ℚ) (qmul ((1050 : ℕ) : ℚ) ((cdiv 3150 4000 : ℕ) : ℚ)))) = 3
    from by decide]
  rw [c3_extract]
  rfl

set_option maxRecDepth 8000 in
theorem c3_intelligent_step2 :
    createForcedChunks c3Sampled 1050 = windowLoop c3Sampled 27 5 79 0 := by
  have hl : c3Sampled.length = 79 := by decide
  unfold createForcedChunks
  rw [c3_sampled_tokens, hl, if_pos (by decide)]
  unfold createLargerContextChunks
  rw [c3_sampled_tokens, hl, if_neg (by decide)]
  dsimp only
  congr <;> decide

set_option maxRecDepth 40000 in
/-- C3 (counterexample): on a ~12600-character transcript with
`maxLength = 300000`, the claimed reduction factor
`estimatedTokens / (maxLength·0.9) ≈ 0.013` is below 1.5, so the claim
demands that every splitter sentence be packed directly into the returned
chunks for all three strategies — yet `IntelligentSamplingStrategy`
samples anyway: some splitter sentence (the only one containing `X`)
occurs in none of the returned chunks. -/
theorem C3_counterexample :
    qdiv (estimateTokens c3Transcript : ℚ) (qmul (300000 : ℚ) (mkRat 9 10)) < mkRat 3 2 ∧
    1 < (splitIntoSentences c3Transcript).length ∧
    (∃ s ∈ splitIntoSentences c3Transcript, 'X' ∈ s) ∧
    ∀ c ∈ intelligentChunkTranscript c3Transcript 300000, 'X' ∉ c := by
  refine ⟨?_, ?_, ?_, ?_⟩
  · rw [c3_tokens]
    decide
  · rw [c3_split]
    simp [c3Sentences]
  · rw [c3_split]
    decide
  · rw [c3_intelligent_step1, c3_intelligent_step2]
    decide

/-- C3 (amended): the Uniform and Bookend strategies compute the shared
reduction factor `max(1, estimatedTokens / (maxLength·0.9))` and, whenever
it is below 1.5, pack the splitter's sentences directly (content
preserved); the Intelligent strategy does not follow this skeleton — it
ignores `maxLength`, uses fixed internal budgets, and can drop sentences
even when that reduction factor is below 1.5. -/
theorem C3_uniform_bookend_direct_pack (transcript : List Char) (maxLength : ℕ)
    (_hml : 0 < maxLength)
    (h1 : 1 < (splitIntoSentences transcript).length)
    (h2 : reductionFactorOf transcript maxLength < mkRat 3 2) :
    uniformChunkTranscript transcript maxLength
        = createChunksFromSentences (splitIntoSentences transcript) maxLength ∧
    bookendChunkTranscript transcript maxLength
        = createChunksFromSentences (splitIntoSentences transcript) maxLength ∧
    joinSp (createChunksFromSentences (splitIntoSentences transcript) maxLength)
        = joinSp (splitIntoSentences transcript) := by
  refine ⟨?_, ?_, createChunksFromSentences_join _ _⟩
  · unfold uniformChunkTranscript
    rw [if_neg (by omega), if_pos h2]
  · unfold bookendChunkTranscript
    rw [if_neg (by omega), if_pos h2]

set_option maxRecDepth 4000 in
theorem C3_uniform_bookend_direct_pack_witness :
    (0 < 300000 ∧ 1 < (splitIntoSentences c3SmallTranscript).length ∧
      reductionFactorOf c3SmallTranscript 300000 < mkRat 3 2) ∧
    uniformChunkTranscript c3SmallTranscript 300000
        = createChunksFromSentences (splitIntoSentences c3SmallTranscript) 300000 :=
  ⟨⟨by decide, by decide, by decide⟩,
    (C3_uniform_bookend_direct_pack c3SmallTranscript 300000 (by decide) (by decide)
      (by decide)).1⟩

/-! ## Claim C9: splitter order preservation and minimum fragment length -/

theorem trimChars_sublist (cs : List Char) : (trimChars cs).Sublist cs := by
  unfold trimChars
  have h1 : (cs.dropWhile isWSChar).Sublist cs := List.dropWhile_sublist isWSChar
  have h2 : ((cs.dropWhile isWSChar).reverse.dropWhile isWSChar).Sublist
      (cs.dropWhile isWSChar).reverse := List.dropWhile_sublist isWSChar
  exact (h2.reverse.trans (by simpa using h1.reverse.reverse)).trans (by simp)

theorem flatten_filter_sublist {p : List Char → Bool} (l : List (List Char)) :
    (l.filter p).flatten.Sublist l.flatten := by
  induction l with
  | nil => simp
  | cons x xs ih =>
    by_cases h : p x
    · simpa [List.filter_cons, h] using ih.append_left x
    · simp only [List.filter_cons, h, Bool.false_eq_true, if_false, List.flatten_cons]
      exact ih.trans (List.sublist_append_right x xs.flatten)

theorem matchAllGo_flatten_sublist :
    ∀ (fuel : ℕ) (cs : List Char), (matchAllGo fuel cs).flatten.Sublist cs := by
  intro fuel
  induction fuel with
  | zero => intro cs; simp [matchAllGo]
  | succ f ih =>
    intro cs
    rcases cs with _ | ⟨c, rest⟩
    · simp [matchAllGo]
    · rw [matchAllGo]
      rcases hm : matchSentenceAt (c :: rest) with _ | ⟨m, r⟩
      · exact (ih rest).trans (List.sublist_cons_self c rest)
      · have heq := (matchSentenceAt_spec hm).1
        dsimp only
        rw [List.flatten_cons, heq]
        exact (ih r).append_left m

theorem simpleSplitGo_flatten_sublist :
    ∀ (cs cur : List Char) (lt sk : Bool),
      (simpleSplitGo cur lt sk cs).flatten.Sublist (cur ++ cs) := by
  intro cs
  induction cs with
  | nil => intro cur lt sk; simp [simpleSplitGo]
  | cons c rest ih =>
    intro cur lt sk
    rw [simpleSplitGo]
    split
    · exact (ih cur lt true).trans
        ((List.sublist_cons_self c rest).append_left cur)
    · split
      · simp only [List.flatten_cons]
        have := ih [] false true
        simp only [List.nil_append] at this
        exact ((this.trans (List.sublist_cons_self c rest)).append_left cur)
      · have := ih (cur ++ [c]) (isTerm3Char c) false
        simpa using this

theorem lineBreakSplitGo_flatten_sublist :
    ∀ (cs cur : List Char) (sk : Bool),
      (lineBreakSplitGo cur sk cs).flatten.Sublist (cur ++ cs) := by
  intro cs
  induction cs with
  | nil => intro cur sk; simp [lineBreakSplitGo]
  | cons c rest ih =>
    intro cur sk
    rw [lineBreakSplitGo]
    split
    · split
      · exact (ih cur true).trans ((List.sublist_cons_self c rest).append_left cur)
      · simp only [List.flatten_cons]
        have := ih [] true
        simp only [List.nil_append] at this
        exact ((this.trans (List.sublist_cons_self c rest)).append_left cur)
    · have := ih (cur ++ [c]) false
      simpa using this

theorem forceSplitGo_flatten_sublist (t : ℕ) :
    ∀ (fuel : ℕ) (cs : List Char), (forceSplitGo t fuel cs).flatten.Sublist cs := by
  intro fuel
  induction fuel with
  | zero => intro cs; simp [forceSplitGo]
  | succ f ih =>
    intro cs
    rcases cs with _ | ⟨c, rest⟩
    · simp [forceSplitGo]
    · rw [forceSplitGo]
      split
      · simpa using trimChars_sublist (c :: rest)
      · dsimp only
        rw [List.flatten_cons]
        have hsub := (trimChars_sublist ((c :: rest).take (forceSplitCut (c :: rest) t))).append
          (ih ((c :: rest).drop (forceSplitCut (c :: rest) t)))
        rwa [List.take_append_drop] at hsub

theorem forceSplit_flatten_sublist (cs : List Char) (t : ℕ) :
    (forceSplitByCharCount cs t).flatten.Sublist cs := by
  unfold forceSplitByCharCount
  split
  · simp
  · exact forceSplitGo_flatten_sublist t cs.length cs

/-- C9 (amended): every sentence list produced by the splitter occurs in
the input in original order without overlap (its concatenation is a
sublist of the text), and — unless the splitter fell through to the
forced character-count split, which bypasses the post-filter and may emit
a short final fragment — every returned sentence is at least 5 characters
long after trimming. -/
theorem C9_splitter_order_and_min_length (text : List Char) :
    (splitIntoSentences text).flatten.Sublist text ∧
    (splitIntoSentences text = forceSplitByCharCount text 800 ∨
      ∀ s ∈ splitIntoSentences text, 5 ≤ (trimChars s).length) := by
  have horder : ∀ l : List (List Char),
      l.flatten.Sublist text →
      ((l.filter (fun s => decide (5 ≤ (trimChars s).length))).flatten).Sublist text :=
    fun l hl => (flatten_filter_sublist l).trans hl
  have h1 : (matchAllSentences text).flatten.Sublist text :=
    matchAllGo_flatten_sublist text.length text
  have h2 : (simpleSplit text).flatten.Sublist text := by
    simpa using simpleSplitGo_flatten_sublist text [] false false
  have h3 : ((lineBreakSplit text).filter
      (fun l => decide (0 < (trimChars l).length))).flatten.Sublist text := by
    refine (flatten_filter_sublist _).trans ?_
    simpa using lineBreakSplitGo_flatten_sublist text [] false
  have key : splitIntoSentences text = forceSplitByCharCount text 800 ∨
      splitIntoSentences text =
        (matchAllSentences text).filter (fun s => decide (5 ≤ (trimChars s).length)) ∨
      splitIntoSentences text =
        (simpleSplit text).filter (fun s => decide (5 ≤ (trimChars s).length)) ∨
      splitIntoSentences text =
        ((lineBreakSplit text).filter (fun l => decide (0 < (trimChars l).length))).filter
          (fun s => decide (5 ≤ (trimChars s).length)) := by
    unfold splitIntoSentences
    dsimp only
    by_cases hA : (matchAllSentences text).length ≤ 5 ∧ 0 < (trimChars text).length
    · simp only [if_pos hA]
      by_cases hB : (matchAllSentences text).length < (simpleSplit text).length
      · simp only [if_pos hB]
        by_cases hC : (simpleSplit text).length ≤ 5
        · simp only [if_pos hC]
          by_cases hD : (simpleSplit text).length <
              ((lineBreakSplit text).filter (fun l => decide (0 < (trimChars l).length))).length
          · simp only [if_pos hD]
            by_cases hE : ((lineBreakSplit text).filter
                (fun l => decide (0 < (trimChars l).length))).length ≤ 5
            · simp only [if_pos hE]
              tauto
            · simp only [if_neg hE]
              tauto
          · simp only [if_neg hD, if_pos hC]
            tauto
        · simp only [if_neg hC]
          tauto
      · simp only [if_neg hB, if_pos hA.1]
        by_cases hD : (matchAllSentences text).length <
            ((lineBreakSplit text).filter (fun l => decide (0 < (trimChars l).length))).length
        · simp only [if_pos hD]
          by_cases hE : ((lineBreakSplit text).filter
              (fun l => decide (0 < (trimChars l).length))).length ≤ 5
          · simp only [if_pos hE]
            tauto
          · simp only [if_neg hE]
            tauto
        · simp only [if_neg hD, if_pos hA.1]
          tauto
    · simp only [if_neg hA]
      tauto
  rcases key with hk | hk | hk | hk <;> rw [hk]
  · exact ⟨forceSplit_flatten_sublist text 800, Or.inl rfl⟩
  · refine ⟨horder _ h1, Or.inr ?_⟩
    intro s hs
    simpa using List.of_mem_filter hs
  · refine ⟨horder _ h2, Or.inr ?_⟩
    intro s hs
    simpa using List.of_mem_filter hs
  · refine ⟨horder _ h3, Or.inr ?_⟩
    intro s hs
    simpa using List.of_mem_filter hs

set_option maxRecDepth 8000 in
/-- C9 (counterexample): 801 letters with no sentence boundary fall
through to the forced character-count split, whose final fragment is a
single letter — shorter than the claimed 5-character minimum. -/
theorem C9_counterexample :
    ∃ s ∈ splitIntoSentences c9Example, (trimChars s).length < 5 := by
  decide

/-! ## C8: the Bookend strategy keeps the first and last sentence -/

theorem insertLe_perm (le : α → α → Bool) (a : α) (l : List α) :
    (insertLe le a l).Perm (a :: l) := by
  induction l with
  | nil => exact List.Perm.refl _
  | cons b t ih =>
    unfold insertLe
    split
    · exact (ih.cons b).trans (List.Perm.swap a b t)
    · exact List.Perm.refl _

theorem stableSort_perm_aux (le : α → α → Bool) :
    ∀ (l acc : List α), (l.foldl (fun acc x => insertLe le x acc) acc).Perm (acc ++ l) := by
  intro l
  induction l with
  | nil => intro acc; simp
  | cons a as ih =>
    intro acc
    have h1 := ih (insertLe le a acc)
    have h2 : (insertLe le a acc ++ as).Perm (acc ++ a :: as) :=
      ((insertLe_perm le a acc).append_right as).trans List.perm_middle.symm
    exact h1.trans h2

/-- The embedded stable sort returns a permutation of its input. -/
theorem stableSort_perm (le : α → α → Bool) (l : List α) :
    (stableSort le l).Perm l := by
  simpa [stableSort] using stableSort_perm_aux le l []

theorem head_mem_take (l : List α) (h : l ≠ []) (k : ℕ) (hk : 1 ≤ k) :
    l.head h ∈ l.take k := by
  cases l with
  | nil => exact absurd rfl h
  | cons a rest =>
    cases k with
    | zero => exact absurd hk (by decide)
    | succ k => simp [List.take_succ_cons]

theorem getLast_mem_drop (l : List α) : ∀ (h : l ≠ []) (n : ℕ), n < l.length →
    l.getLast h ∈ l.drop n := by
  induction l with
  | nil => intro h; exact absurd rfl h
  | cons a rest ih =>
    intro h n hn
    cases n with
    | zero => exact List.getLast_mem h
    | succ n =>
      have hrest : rest ≠ [] := by
        intro he
        rw [he] at hn
        simp at hn
      rw [List.drop_succ_cons, List.getLast_cons hrest]
      exact ih hrest n (by simpa using hn)

/-- C8: whenever the Bookend strategy actually samples (more than one
sentence, reduction factor at least 1.5, bookend size at least one
sentence), the returned chunks are the greedy packing of the re-sorted
sampled sentence list, and both the first and the last sentence of the
split transcript are present in that list. -/
theorem C8_bookend_keeps_first_and_last (transcript : List Char) (maxLength : ℕ)
    (hne : splitIntoSentences transcript ≠ [])
    (h1 : 1 < (splitIntoSentences transcript).length)
    (h2 : ¬ reductionFactorOf transcript maxLength < mkRat 3 2)
    (h3 : 1 ≤ bookendSizeOf transcript maxLength) :
    bookendChunkTranscript transcript maxLength =
      createChunksFromSentences (bookendSorted transcript maxLength) maxLength ∧
    (splitIntoSentences transcript).head hne ∈ bookendSorted transcript maxLength ∧
    (splitIntoSentences transcript).getLast hne ∈ bookendSorted transcript maxLength := by
  have hperm := stableSort_perm
    (fun a b => decide ((splitIntoSentences transcript).indexOf a ≤
      (splitIntoSentences transcript).indexOf b))
    (bookendSampled (splitIntoSentences transcript) (reductionFactorOf transcript maxLength))
  refine ⟨?_, ?_, ?_⟩
  · unfold bookendChunkTranscript bookendSorted
    dsimp only
    rw [if_neg (by omega : ¬ (splitIntoSentences transcript).length ≤ 1), if_neg h2]
  · unfold bookendSorted
    dsimp only
    rw [hperm.mem_iff]
    unfold bookendSampled
    dsimp only
    refine List.mem_append_left _ (List.mem_append_left _ ?_)
    exact head_mem_take _ hne _ h3
  · unfold bookendSorted
    dsimp only
    rw [hperm.mem_iff]
    unfold bookendSampled
    dsimp only
    refine List.mem_append_right _ ?_
    exact getLast_mem_drop _ hne _ (Nat.sub_lt (List.length_pos.mpr hne) h3)

set_option maxRecDepth 8000 in
/-- C8 witness: twelve 30-character sentences at budget 50 give reduction
factor 2 and bookend size 2, so the theorem applies. -/
theorem C8_bookend_keeps_first_and_last_witness :
    ∃ hne : splitIntoSentences c8Transcript ≠ [],
      1 < (splitIntoSentences c8Transcript).length ∧
      ¬ reductionFactorOf c8Transcript 50 < mkRat 3 2 ∧
      1 ≤ bookendSizeOf c8Transcript 50 ∧
      (bookendChunkTranscript c8Transcript 50 =
          createChunksFromSentences (bookendSorted c8Transcript 50) 50 ∧
        (splitIntoSentences c8Transcript).head hne ∈ bookendSorted c8Transcript 50 ∧
        (splitIntoSentences c8Transcript).getLast hne ∈ bookendSorted c8Transcript 50) :=
  ⟨by decide, by decide, by decide, by decide,
    C8_bookend_keeps_first_and_last c8Transcript 50 (by decide) (by decide)
      (by decide) (by decide)⟩

/-! ## C4: the Validate stage's acceptance condition -/

/-- C4 (amended): the validator accepts exactly when a transcript is
present and nonempty, has at least `minTranscriptLength` characters, its
`split(/\s+/)` field count is at least 20, and the ratio of
alphanumeric-or-whitespace characters (the regex `[^a-zA-Z0-9\s]` removes
everything else, keeping whitespace) to total characters is at least 0.5;
each failing check rejects with its own distinguishable reason. -/
theorem C4_validator_accepts_iff (minLen : ℕ) (t : Option (List Char)) :
    validateTranscript minLen t = .valid ↔
      ∃ s, t = some s ∧ s ≠ [] ∧ minLen ≤ s.length ∧ 20 ≤ (splitWSJS s).length ∧
        mkRat 1 2 ≤ qdiv (((s.filter (fun c => isAlnumChar c || isWSChar c)).length : ℚ))
          ((s.length : ℚ)) := by
  cases t with
  | none => simp [validateTranscript]
  | some s =>
    unfold validateTranscript
    dsimp only
    split_ifs with h1 h2 h3 h4
    · constructor
      · intro h
        exact h.elim
      · rintro ⟨s', hs', hne, -⟩
        cases hs'
        exact absurd h1 hne
    · constructor
      · intro h
        exact h.elim
      · rintro ⟨s', hs', -, hlen, -⟩
        cases hs'
        omega
    · constructor
      · intro h
        exact h.elim
      · rintro ⟨s', hs', -, -, hw, -⟩
        cases hs'
        omega
    · constructor
      · intro h
        exact h.elim
      · rintro ⟨s', hs', -, -, -, hr⟩
        cases hs'
        exact absurd h4 (not_lt.mpr hr)
    · constructor
      · intro _
        exact ⟨s, rfl, h1, not_lt.mp h2, not_lt.mp h3, not_lt.mp h4⟩
      · intro _
        rfl

set_option maxRecDepth 4000 in
/-- C4 (counterexample): the 201-character transcript `"a! a! … a!"` is
accepted by the validator although only a third of its characters are
alphanumeric — the code's quality check also counts whitespace, so the
claimed strict alphanumeric-ratio rejection does not hold. -/
theorem C4_counterexample :
    validateTranscript 100 (some c4Example) = .valid ∧
    qdiv (((c4Example.filter (fun c => isAlnumChar c)).length : ℚ))
      ((c4Example.length : ℚ)) < mkRat 1 2 := by
  decide

/-! ## C2: retry counts of `summarizeChunkWithRetry` -/

theorem retryGo_succ (gen : ℕ → Except String String) (r c : ℕ) (last : Option String) :
    retryGo gen (r + 1) c last =
      match gen (c + 1) with
      | .ok s => (c + 1, .ok s)
      | .error e => retryGo gen r (c + 1) (some e) := rfl

theorem retryGo_succeeds (gen : ℕ → Except String String) (s : String) :
    ∀ (j r c : ℕ) (last : Option String), j < r →
      (∀ i, c < i → i ≤ c + j → ∃ e', gen i = .error e') →
      gen (c + j + 1) = .ok s →
      retryGo gen r c last = (c + j + 1, .ok s) := by
  intro j
  induction j with
  | zero =>
    intro r c last hr _ hsucc
    simp only [Nat.add_zero] at hsucc ⊢
    obtain ⟨r', rfl⟩ : ∃ r', r = r' + 1 := ⟨r - 1, by omega⟩
    rw [retryGo_succ, hsucc]
  | succ j ih =>
    intro r c last hr hfail hsucc
    obtain ⟨r', rfl⟩ : ∃ r', r = r' + 1 := ⟨r - 1, by omega⟩
    obtain ⟨e, he⟩ := hfail (c + 1) (by omega) (by omega)
    rw [retryGo_succ, he]
    dsimp only
    have hih := ih r' (c + 1) (some e) (by omega)
      (fun i h1 h2 => hfail i (by omega) (by omega))
      (by
        have harith : c + 1 + j + 1 = c + (j + 1) + 1 := by omega
        rw [harith]
        exact hsucc)
    rw [hih]
    simp only [Prod.mk.injEq]
    exact ⟨by omega, trivial⟩

theorem retryGo_all_fail (gen : ℕ → Except String String) (e : String) :
    ∀ (r c : ℕ) (last : Option String), 0 < r →
      (∀ i, c < i → i ≤ c + r → ∃ e', gen i = .error e') →
      gen (c + r) = .error e →
      retryGo gen r c last = (c + r, .error (some e)) := by
  intro r
  induction r with
  | zero =>
    intro c last h _ _
    exact absurd h (by decide)
  | succ r' ih =>
    intro c last _ hfail hlast
    cases Nat.eq_zero_or_pos r' with
    | inl hz =>
      subst hz
      have he1 : gen (c + 1) = Except.error e := by simpa using hlast
      rw [retryGo_succ, he1]
      dsimp only
      rfl
    | inr hpos =>
      obtain ⟨e1, he1⟩ := hfail (c + 1) (by omega) (by omega)
      rw [retryGo_succ, he1]
      dsimp only
      have hih := ih (c + 1) (some e1) hpos
        (fun i h1 h2 => hfail i (by omega) (by omega))
        (by
          have harith : c + 1 + r' = c + (r' + 1) := by omega
          rw [harith]
          exact hlast)
      rw [hih]
      simp only [Prod.mk.injEq]
      exact ⟨by omega, trivial⟩

/-- C2: with retry bound `maxRetries`, if the backend fails on the first
`k < maxRetries` attempts and succeeds on attempt `k + 1`, exactly `k + 1`
attempts are made and the success is returned; and if it fails on every
attempt (with `maxRetries > 0`), exactly `maxRetries` attempts are made
and the error of the last attempt is propagated. -/
theorem C2_retry_attempt_counts (gen : ℕ → Except String String)
    (maxRetries k : ℕ) (s e : String) :
    (k < maxRetries →
      (∀ i, 1 ≤ i → i ≤ k → ∃ e', gen i = .error e') →
      gen (k + 1) = .ok s →
      summarizeChunkWithRetry gen maxRetries = (k + 1, .ok s)) ∧
    (0 < maxRetries →
      (∀ i, 1 ≤ i → i ≤ maxRetries → ∃ e', gen i = .error e') →
      gen maxRetries = .error e →
      summarizeChunkWithRetry gen maxRetries = (maxRetries, .error (some e))) := by
  constructor
  · intro hk hfail hsucc
    unfold summarizeChunkWithRetry
    have h := retryGo_succeeds gen s k maxRetries 0 none hk
      (fun i h1 h2 => hfail i (by omega) (by omega)) (by simpa using hsucc)
    simpa using h
  · intro hpos hfail hlast
    unfold summarizeChunkWithRetry
    have h := retryGo_all_fail gen e maxRetries 0 none hpos
      (fun i h1 h2 => hfail i (by omega) (by omega)) (by simpa using hlast)
    simpa using h

/-- C2 witness: a backend failing twice then succeeding, with bound 5,
makes 3 attempts and returns the success; a backend that always fails,
with bound 4, makes 4 attempts and propagates the last error. -/
theorem C2_retry_attempt_counts_witness :
    summarizeChunkWithRetry c2Gen 5 = (3, .ok "done") ∧
    summarizeChunkWithRetry c2GenFail 4 = (4, .error (some "boom")) :=
  ⟨(C2_retry_attempt_counts c2Gen 5 2 "done" "boom").1 (by decide)
      (fun i h1 h2 => ⟨"boom", by
        have h : i < 3 := by omega
        simp [c2Gen, h]⟩) rfl,
    (C2_retry_attempt_counts c2GenFail 4 0 "done" "boom").2 (by decide)
      (fun i _ _ => ⟨"boom", rfl⟩) rfl⟩

/-! ## C5 and C6: batching and order preservation of the map stage -/

theorem except_bind_ok (a : α) (g : α → Except ε β) :
    (Except.ok a >>= g) = g a := rfl

theorem except_bind_err (e : ε) (g : α → Except ε β) :
    (Except.error e >>= g) = (Except.error e : Except ε β) := rfl

theorem runBatch_cons (f : α → ℕ → Except String β) (off : ℕ) (c : α) (rest : List α) :
    runBatch f off (c :: rest) =
      (f c off >>= fun s => runBatch f (off + 1) rest >>= fun rs =>
        Except.ok (s :: rs)) := rfl

theorem runBatchesGo_cons (f : α → ℕ → Except String β) (ac fuel off : ℕ)
    (x : α) (xs : List α) :
    runBatchesGo f ac (fuel + 1) off (x :: xs) =
      (runBatch f off ((x :: xs).take ac) >>= fun rs =>
        runBatchesGo f ac fuel (off + ac) ((x :: xs).drop ac) >>= fun rest =>
          Except.ok (rs ++ rest)) := rfl

theorem runBatchSeq_cons (f : α → ℕ → Except String β) (off : ℕ)
    (b : List α) (bs : List (List α)) :
    runBatchSeq f off (b :: bs) =
      (runBatch f off b >>= fun rs =>
        runBatchSeq f (off + b.length) bs >>= fun rest =>
          Except.ok (rs ++ rest)) := rfl

theorem runBatchesGo_nil (f : α → ℕ → Except String β) (ac : ℕ) :
    ∀ (fuel off : ℕ), runBatchesGo f ac fuel off ([] : List α) = .ok [] := by
  intro fuel off
  cases fuel <;> rfl

theorem batchifyGo_nil (ac : ℕ) : ∀ fuel, batchifyGo ac fuel ([] : List α) = [] := by
  intro fuel
  cases fuel <;> rfl

theorem batchifyGo_cons (ac fuel : ℕ) (x : α) (xs : List α) :
    batchifyGo ac (fuel + 1) (x :: xs) =
      (x :: xs).take ac :: batchifyGo ac fuel ((x :: xs).drop ac) := rfl

theorem dropLast_cons2 (a b : α) (l : List α) :
    (a :: b :: l).dropLast = a :: (b :: l).dropLast := rfl

theorem batchifyGo_flatten (ac : ℕ) (hac : 0 < ac) :
    ∀ (fuel : ℕ) (l : List α), l.length ≤ fuel → (batchifyGo ac fuel l).flatten = l := by
  intro fuel
  induction fuel with
  | zero =>
    intro l hl
    cases l with
    | nil => rfl
    | cons x xs => simp at hl
  | succ fuel ih =>
    intro l hl
    cases l with
    | nil => rfl
    | cons x xs =>
      rw [batchifyGo_cons, List.flatten_cons]
      have hlen : ((x :: xs).drop ac).length ≤ fuel := by
        rw [List.length_drop]
        have hc : (x :: xs).length = xs.length + 1 := List.length_cons x xs
        omega
      rw [ih _ hlen, List.take_append_drop]

theorem batchifyGo_mem (ac : ℕ) (hac : 0 < ac) :
    ∀ (fuel : ℕ) (l : List α), l.length ≤ fuel →
      ∀ b ∈ batchifyGo ac fuel l, b ≠ [] ∧ b.length ≤ ac := by
  intro fuel
  induction fuel with
  | zero =>
    intro l hl b hb
    cases l with
    | nil => exact absurd hb (List.not_mem_nil b)
    | cons x xs => simp at hl
  | succ fuel ih =>
    intro l hl b hb
    cases l with
    | nil => exact absurd hb (List.not_mem_nil b)
    | cons x xs =>
      rw [batchifyGo_cons] at hb
      rcases List.mem_cons.mp hb with hb | hb
      · subst hb
        constructor
        · obtain ⟨a', rfl⟩ : ∃ a', ac = a' + 1 := ⟨ac - 1, by omega⟩
          simp [List.take_succ_cons]
        · rw [List.length_take]
          omega
      · have hlen : ((x :: xs).drop ac).length ≤ fuel := by
          rw [List.length_drop]
          have hc : (x :: xs).length = xs.length + 1 := List.length_cons x xs
          omega
        exact ih _ hlen b hb

theorem batchifyGo_dropLast (ac : ℕ) (hac : 0 < ac) :
    ∀ (fuel : ℕ) (l : List α), l.length ≤ fuel →
      ∀ b ∈ (batchifyGo ac fuel l).dropLast, b.length = ac := by
  intro fuel
  induction fuel with
  | zero =>
    intro l hl b hb
    cases l with
    | nil => simp [batchifyGo] at hb
    | cons x xs => simp at hl
  | succ fuel ih =>
    intro l hl b hb
    cases l with
    | nil => simp [batchifyGo] at hb
    | cons x xs =>
      rw [batchifyGo_cons] at hb
      by_cases hle : (x :: xs).length ≤ ac
      · have hd : (x :: xs).drop ac = [] := List.drop_eq_nil_of_le hle
        rw [hd, batchifyGo_nil] at hb
        rw [show ((x :: xs).take ac :: ([] : List (List α))).dropLast = [] from rfl] at hb
        exact absurd hb (List.not_mem_nil b)
      · push_neg at hle
        have hd : (x :: xs).drop ac ≠ [] := by
          intro hcon
          have hc := congrArg List.length hcon
          rw [List.length_drop] at hc
          have hc2 : (x :: xs).length = xs.length + 1 := List.length_cons x xs
          simp at hc
          omega
        have hlen : ((x :: xs).drop ac).length ≤ fuel := by
          rw [List.length_drop]
          have hc : (x :: xs).length = xs.length + 1 := List.length_cons x xs
          omega
        have hfuel : 1 ≤ fuel := by
          have hpos : 0 < ((x :: xs).drop ac).length := List.length_pos.mpr hd
          omega
        obtain ⟨fuel', rfl⟩ : ∃ f', fuel = f' + 1 := ⟨fuel - 1, by omega⟩
        obtain ⟨y, ys, hys⟩ := List.exists_cons_of_ne_nil hd
        rw [hys, batchifyGo_cons, dropLast_cons2] at hb
        rcases List.mem_cons.mp hb with hb | hb
        · subst hb
          rw [List.length_take]
          omega
        · rw [← batchifyGo_cons, ← hys] at hb
          exact ih _ hlen b hb

theorem runBatchesGo_eq_seq (f : α → ℕ → Except String β) (ac : ℕ) (hac : 0 < ac) :
    ∀ (fuel : ℕ) (l : List α) (off : ℕ), l.length ≤ fuel →
      runBatchesGo f ac fuel off l = runBatchSeq f off (batchifyGo ac fuel l) := by
  intro fuel
  induction fuel with
  | zero =>
    intro l off hl
    cases l with
    | nil => rfl
    | cons x xs => simp at hl
  | succ fuel ih =>
    intro l off hl
    cases l with
    | nil => rfl
    | cons x xs =>
      rw [runBatchesGo_cons, batchifyGo_cons, runBatchSeq_cons]
      cases hrb : runBatch f off ((x :: xs).take ac) with
      | error e => rw [except_bind_err, except_bind_err]
      | ok rs =>
        rw [except_bind_ok, except_bind_ok]
        by_cases hle : (x :: xs).length ≤ ac
        · rw [List.drop_eq_nil_of_le hle, batchifyGo_nil, runBatchesGo_nil]
          rfl
        · push_neg at hle
          have htk : ((x :: xs).take ac).length = ac := by
            rw [List.length_take]
            omega
          have hlen : ((x :: xs).drop ac).length ≤ fuel := by
            rw [List.length_drop]
            have hc : (x :: xs).length = xs.length + 1 := List.length_cons x xs
            omega
          rw [htk, ih _ _ hlen]

/-- C5: the map stage partitions the chunks into consecutive batches of
width `actualConcurrency = min(configuredMax, max(2, ceil(6/chunkCount)))`
— every batch is nonempty and at most that wide, all but the last are
exactly that wide, concatenating them restores the chunk array — and
`exec` is exactly the sequential batch-by-batch run (each batch fully
awaited before the next starts). -/
theorem C5_map_stage_batching (f : α → ℕ → Except String β) (maxConcurrent : ℕ)
    (chunks : List α) (hmc : 0 < maxConcurrent) (hne : chunks ≠ []) :
    (mapStageBatches maxConcurrent chunks).flatten = chunks ∧
    (∀ b ∈ mapStageBatches maxConcurrent chunks,
      b ≠ [] ∧ b.length ≤ actualConcurrency maxConcurrent chunks.length) ∧
    (∀ b ∈ (mapStageBatches maxConcurrent chunks).dropLast,
      b.length = actualConcurrency maxConcurrent chunks.length) ∧
    execMapStage f maxConcurrent chunks =
      runBatchSeq f 0 (mapStageBatches maxConcurrent chunks) := by
  have hac : 0 < actualConcurrency maxConcurrent chunks.length := by
    unfold actualConcurrency
    omega
  have hemp : ¬ chunks.isEmpty = true := by
    cases chunks with
    | nil => exact absurd rfl hne
    | cons a as => simp
  unfold mapStageBatches batchify
  rw [if_neg (by omega : ¬ actualConcurrency maxConcurrent chunks.length = 0)]
  refine ⟨batchifyGo_flatten _ hac _ _ le_rfl,
    fun b hb => batchifyGo_mem _ hac _ _ le_rfl b hb,
    fun b hb => batchifyGo_dropLast _ hac _ _ le_rfl b hb, ?_⟩
  unfold execMapStage
  rw [if_neg hemp, if_neg (by omega : ¬ actualConcurrency maxConcurrent chunks.length = 0)]
  exact runBatchesGo_eq_seq f _ hac chunks.length chunks 0 le_rfl

/-- C5 witness: six chunks at `maxConcurrent = 3` run as three sequential
batches of two. -/
theorem C5_map_stage_batching_witness :
    0 < 3 ∧ c56Chunks ≠ [] ∧
    (mapStageBatches 3 c56Chunks).map List.length = [2, 2, 2] ∧
    ((mapStageBatches 3 c56Chunks).flatten = c56Chunks ∧
      (∀ b ∈ mapStageBatches 3 c56Chunks,
        b ≠ [] ∧ b.length ≤ actualConcurrency 3 c56Chunks.length) ∧
      (∀ b ∈ (mapStageBatches 3 c56Chunks).dropLast,
        b.length = actualConcurrency 3 c56Chunks.length) ∧
      execMapStage c56Fun 3 c56Chunks =
        runBatchSeq c56Fun 0 (mapStageBatches 3 c56Chunks)) :=
  ⟨by decide, by decide, by decide,
    C5_map_stage_batching c56Fun 3 c56Chunks (by decide) (by decide)⟩

theorem runBatch_ok (f : α → ℕ → Except String β) :
    ∀ (b : List α) (off : ℕ) (out : List β), runBatch f off b = .ok out →
      out.length = b.length ∧
      ∀ i (hi : i < b.length) (ho : i < out.length),
        f (b.get ⟨i, hi⟩) (off + i) = .ok (out.get ⟨i, ho⟩) := by
  intro b
  induction b with
  | nil =>
    intro off out hok
    rw [show runBatch f off ([] : List α) = .ok [] from rfl] at hok
    have hout : out = [] := by
      injection hok with h
      exact h.symm
    subst hout
    exact ⟨rfl, fun i hi ho => absurd hi (by simp)⟩
  | cons c rest ih =>
    intro off out hok
    rw [runBatch_cons] at hok
    cases hfa : f c off with
    | error e =>
      rw [hfa, except_bind_err] at hok
      exact Except.noConfusion hok
    | ok s =>
      rw [hfa, except_bind_ok] at hok
      cases hrb : runBatch f (off + 1) rest with
      | error e =>
        rw [hrb, except_bind_err] at hok
        exact Except.noConfusion hok
      | ok rs =>
        rw [hrb, except_bind_ok] at hok
        have hout : out = s :: rs := by
          injection hok with h
          exact h.symm
        subst hout
        obtain ⟨hl, hidx⟩ := ih (off + 1) rs hrb
        refine ⟨by simp [hl], ?_⟩
        intro i hi ho
        cases i with
        | zero => exact hfa
        | succ j =>
          have hj := hidx j (Nat.lt_of_succ_lt_succ hi) (Nat.lt_of_succ_lt_succ ho)
          have harith : off + 1 + j = off + (j + 1) := by omega
          rw [harith] at hj
          exact hj

theorem runBatch_append (f : α → ℕ → Except String β) :
    ∀ (b1 b2 : List α) (off : ℕ),
      runBatch f off (b1 ++ b2) =
        (runBatch f off b1 >>= fun rs =>
          runBatch f (off + b1.length) b2 >>= fun rest =>
            Except.ok (rs ++ rest)) := by
  intro b1
  induction b1 with
  | nil =>
    intro b2 off
    simp only [List.nil_append, List.length_nil, Nat.add_zero,
      show runBatch f off ([] : List α) = .ok [] from rfl, except_bind_ok]
    cases hrb : runBatch f off b2 with
    | error e => rw [except_bind_err]
    | ok rs => rw [except_bind_ok]
  | cons c t ih =>
    intro b2 off
    rw [List.cons_append, runBatch_cons, runBatch_cons]
    cases hfa : f c off with
    | error e => simp only [hfa, except_bind_err]
    | ok s =>
      simp only [hfa, except_bind_ok]
      rw [ih b2 (off + 1)]
      have harith : off + (c :: t).length = off + 1 + t.length := by
        rw [List.length_cons]
        omega
      rw [harith]
      cases hrt : runBatch f (off + 1) t with
      | error e => simp only [hrt, except_bind_err]
      | ok rs =>
        simp only [hrt, except_bind_ok]
        cases hrb2 : runBatch f (off + 1 + t.length) b2 with
        | error e => simp only [hrb2, except_bind_err]
        | ok rest => simp only [hrb2, except_bind_ok, List.cons_append]

theorem runBatchesGo_eq_runBatch (f : α → ℕ → Except String β) (ac : ℕ) (hac : 0 < ac) :
    ∀ (fuel : ℕ) (l : List α) (off : ℕ), l.length ≤ fuel →
      runBatchesGo f ac fuel off l = runBatch f off l := by
  intro fuel
  induction fuel with
  | zero =>
    intro l off hl
    cases l with
    | nil => rfl
    | cons x xs => simp at hl
  | succ fuel ih =>
    intro l off hl
    cases l with
    | nil => rfl
    | cons x xs =>
      rw [runBatchesGo_cons]
      conv_rhs => rw [← List.take_append_drop ac (x :: xs)]
      rw [runBatch_append]
      by_cases hle : (x :: xs).length ≤ ac
      · rw [List.drop_eq_nil_of_le hle, runBatchesGo_nil]
        rfl
      · push_neg at hle
        have htk : ((x :: xs).take ac).length = ac := by
          rw [List.length_take]
          omega
        have hlen : ((x :: xs).drop ac).length ≤ fuel := by
          rw [List.length_drop]
          have hc : (x :: xs).length = xs.length + 1 := List.length_cons x xs
          omega
        rw [htk, ih _ _ hlen]

/-- C6: whenever the map stage succeeds, its output has exactly one
summary per chunk and the summary at every index `i` is the one the
backend produced for the chunk at index `i`. -/
theorem C6_map_stage_preserves_order (f : α → ℕ → Except String β)
    (maxConcurrent : ℕ) (chunks : List α) (out : List β)
    (hok : execMapStage f maxConcurrent chunks = .ok out) :
    out.length = chunks.length ∧
    ∀ i (hi : i < chunks.length) (ho : i < out.length),
      f (chunks.get ⟨i, hi⟩) i = .ok (out.get ⟨i, ho⟩) := by
  have hemp : ¬ chunks.isEmpty = true := by
    intro hcon
    unfold execMapStage at hok
    rw [if_pos hcon] at hok
    exact Except.noConfusion hok
  have hac : ¬ actualConcurrency maxConcurrent chunks.length = 0 := by
    intro hz
    unfold execMapStage at hok
    rw [if_neg hemp, if_pos hz] at hok
    exact Except.noConfusion hok
  unfold execMapStage at hok
  rw [if_neg hemp, if_neg hac] at hok
  rw [runBatchesGo_eq_runBatch f _ (by omega) chunks.length chunks 0 le_rfl] at hok
  obtain ⟨hl, hidx⟩ := runBatch_ok f chunks 0 out hok
  refine ⟨hl, fun i hi ho => ?_⟩
  have h := hidx i hi ho
  rw [Nat.zero_add] at h
  exact h

/-- C6 witness: six concrete chunks map to exactly their six index-tagged
summaries, in input order. -/
theorem C6_map_stage_preserves_order_witness :
    execMapStage c56Fun 3 c56Chunks = .ok [10, 21, 32, 43, 54, 65] ∧
    (([10, 21, 32, 43, 54, 65] : List ℕ).length = c56Chunks.length ∧
      ∀ i (hi : i < c56Chunks.length)
        (ho : i < ([10, 21, 32, 43, 54, 65] : List ℕ).length),
        c56Fun (c56Chunks.get ⟨i, hi⟩) i =
          .ok (([10, 21, 32, 43, 54, 65] : List ℕ).get ⟨i, ho⟩)) :=
  ⟨rfl, C6_map_stage_preserves_order c56Fun 3 c56Chunks [10, 21, 32, 43, 54, 65] rfl⟩

/-! ## C7: the token cap sleeps a flat 60 seconds -/

/-- C7: whenever `throttle` finds that the tokens recorded in the trailing
60-second window plus the estimated cost exceed `tokensPerMinute`, it
returns exactly 60 000 ms after the point the requests-per-minute stage
finished — a flat full-minute sleep, independent of how soon the window
would clear headroom. -/
theorem C7_token_cap_full_minute_sleep (cfg : ThrottleCfg) (s : ThrottleState)
    (t : ℤ) (est : ℕ)
    (hcap : cfg.tokensPerMinute <
      (pruneQueue (afterDaily cfg s t).1.tokenQueue (afterDaily cfg s t).2).length + est) :
    (throttle cfg s t est).2 =
      rpmResumeTime cfg
        (pruneQueue (afterDaily cfg s t).1.requestQueue (afterDaily cfg s t).2)
        (afterDaily cfg s t).2 + 60000 := by
  unfold throttle
  dsimp only
  rw [if_pos hcap]

/-- C7 witness: eleven in-window tokens against a cap of ten trigger the
flat 60 s wait after an otherwise idle throttler. -/
theorem C7_token_cap_full_minute_sleep_witness :
    (c7Cfg.tokensPerMinute <
      (pruneQueue (afterDaily c7Cfg c7State 2000).1.tokenQueue
        (afterDaily c7Cfg c7State 2000).2).length + 0) ∧
    (throttle c7Cfg c7State 2000 0).2 =
      rpmResumeTime c7Cfg
        (pruneQueue (afterDaily c7Cfg c7State 2000).1.requestQueue
          (afterDaily c7Cfg c7State 2000).2)
        (afterDaily c7Cfg c7State 2000).2 + 60000 :=
  ⟨by decide, C7_token_cap_full_minute_sleep c7Cfg c7State 2000 0 (by decide)⟩

/-! ## C1: the throttler's rate invariants -/

theorem nextMidnight_gt (t : ℤ) : t < nextMidnight t := by
  have h1 : dayMs * (t.ediv dayMs) + t.emod dayMs = t := Int.ediv_add_emod t dayMs
  have h2 : t.emod dayMs < dayMs := Int.emod_lt_of_pos t (by decide)
  have h3 : (t.ediv dayMs + 1) * dayMs = dayMs * (t.ediv dayMs) + dayMs := by ring
  unfold nextMidnight
  linarith

theorem afterDaily_requestQueue (cfg : ThrottleCfg) (s : ThrottleState) (t : ℤ) :
    (afterDaily cfg s t).1.requestQueue = s.requestQueue := by
  unfold afterDaily checkDailyReset
  dsimp only
  split_ifs <;> rfl

theorem afterDaily_time_ge (cfg : ThrottleCfg) (s : ThrottleState) (t : ℤ) :
    t ≤ (afterDaily cfg s t).2 := by
  unfold afterDaily checkDailyReset
  dsimp only
  by_cases h1 : s.dailyResetTime ≤ t
  · simp only [if_pos h1]
    split_ifs with h2
    · exact le_of_lt (nextMidnight_gt t)
    · exact le_rfl
  · simp only [if_neg h1]
    split_ifs with h2
    · exact le_of_lt (lt_of_not_le h1)
    · exact le_rfl

theorem throttle_requestQueue (cfg : ThrottleCfg) (s : ThrottleState) (t : ℤ) (est : ℕ) :
    (throttle cfg s t est).1.requestQueue =
      pruneQueue s.requestQueue (afterDaily cfg s t).2 := by
  unfold throttle
  dsimp only
  rw [afterDaily_requestQueue]

theorem throttle_time_ge (cfg : ThrottleCfg) (s : ThrottleState) (t : ℤ) (est : ℕ) :
    rpmResumeTime cfg (pruneQueue s.requestQueue (afterDaily cfg s t).2)
      (afterDaily cfg s t).2 ≤ (throttle cfg s t est).2 := by
  unfold throttle
  dsimp only
  rw [afterDaily_requestQueue]
  split_ifs with h
  · omega
  · exact le_rfl

theorem recordApiCall_queue (s : ThrottleState) (t : ℤ) (k : ℕ) :
    (recordApiCall s t k).requestQueue = s.requestQueue ++ [t] := rfl

theorem mem_pruneQueue (q : List ℤ) (now x : ℤ) (hx : x ∈ pruneQueue q now) :
    now - 60000 < x := by
  have h := List.of_mem_filter hx
  simpa using h

theorem rpmResumeTime_ge (cfg : ThrottleCfg) (rq : List ℤ) (now : ℤ)
    (hq : ∀ x ∈ rq, now - 60000 < x) : now ≤ rpmResumeTime cfg rq now := by
  unfold rpmResumeTime
  split_ifs with h
  · cases rq with
    | nil => exact le_rfl
    | cons oldest rest =>
      have ho := hq oldest (List.mem_cons_self oldest rest)
      dsimp only
      omega
  · exact le_rfl

theorem filter_filter_cutoff (recs : List ℤ) (c c' : ℤ) (h : c ≤ c') :
    (recs.filter (fun x => decide (c < x))).filter (fun x => decide (c' < x)) =
      recs.filter (fun x => decide (c' < x)) := by
  induction recs with
  | nil => rfl
  | cons a as ih =>
    simp only [List.filter_cons]
    by_cases h1 : c' < a
    · have h2 : c < a := lt_of_le_of_lt h h1
      simp [h1, h2, ih]
    · by_cases h2 : c < a
      · simp [h1, h2, ih]
      · simp [h1, h2, ih]

theorem windowCount_append_one (recs : List ℤ) (rt T : ℤ) :
    windowCount (recs ++ [rt]) T =
      windowCount recs T + (if T - 60000 < rt ∧ rt ≤ T then 1 else 0) := by
  unfold windowCount
  rw [List.filter_append, List.length_append]
  by_cases h : T - 60000 < rt ∧ rt ≤ T
  · simp [h]
  · simp [h]

theorem length_filter_mono (l : List ℤ) (p q : ℤ → Bool)
    (h : ∀ a ∈ l, p a = true → q a = true) :
    (l.filter p).length ≤ (l.filter q).length := by
  rw [← List.countP_eq_length_filter, ← List.countP_eq_length_filter]
  exact List.countP_mono_left h

theorem filter_eq_window (recs : List ℤ) (now : ℤ) (h : ∀ x ∈ recs, x ≤ now) :
    (recs.filter (fun x => decide (now - 60000 < x))).length = windowCount recs now := by
  unfold windowCount
  congr 1
  refine List.filter_congr ?_
  intro x hx
  have hxle := h x hx
  rw [decide_eq_decide]
  exact ⟨fun hh => ⟨hh, hxle⟩, And.left⟩

/-- One `throttle`/`recordApiCall` pair preserves the run invariant: all
records bounded by the current time, the request queue is the record list
filtered at some cutoff at least a minute old, and every trailing window
holds at most `requestsPerMinute` records. -/
theorem step_preserves (cfg : ThrottleCfg) (hrpm : 1 ≤ cfg.requestsPerMinute)
    (s : ThrottleState) (recs : List ℤ) (t : ℤ) (r : ThrottleReq)
    (hA1 : ∀ x ∈ recs, x ≤ t)
    (hA3 : ∃ c, c ≤ t - 60000 ∧ s.requestQueue = recs.filter (fun x => decide (c < x)))
    (hA4 : ∀ T, windowCount recs T ≤ cfg.requestsPerMinute) :
    let a := t + (r.wait : ℤ)
    let th := throttle cfg s a r.est
    let rt := th.2 + (r.gap : ℤ)
    let s₂ := recordApiCall th.1 rt r.used
    (∀ x ∈ recs ++ [rt], x ≤ rt) ∧
    (∃ c', c' ≤ rt - 60000 ∧
      s₂.requestQueue = (recs ++ [rt]).filter (fun x => decide (c' < x))) ∧
    (∀ T, windowCount (recs ++ [rt]) T ≤ cfg.requestsPerMinute) := by
  intro a th rt s₂
  obtain ⟨c, hc, hqeq⟩ := hA3
  have hta : t ≤ a := by
    show t ≤ t + (r.wait : ℤ)
    omega
  have hanow : a ≤ (afterDaily cfg s a).2 := afterDaily_time_ge cfg s a
  have hqth : th.1.requestQueue = pruneQueue s.requestQueue (afterDaily cfg s a).2 :=
    throttle_requestQueue cfg s a r.est
  have hth2 : rpmResumeTime cfg (pruneQueue s.requestQueue (afterDaily cfg s a).2)
      (afterDaily cfg s a).2 ≤ th.2 := throttle_time_ge cfg s a r.est
  have hnowrpm : (afterDaily cfg s a).2 ≤
      rpmResumeTime cfg (pruneQueue s.requestQueue (afterDaily cfg s a).2)
        (afterDaily cfg s a).2 :=
    rpmResumeTime_ge cfg _ _ (fun x hx => mem_pruneQueue _ _ x hx)
  have hthrt : th.2 ≤ rt := by
    show th.2 ≤ th.2 + (r.gap : ℤ)
    omega
  have hnowrt : (afterDaily cfg s a).2 ≤ rt := by omega
  have hrq2 : pruneQueue s.requestQueue (afterDaily cfg s a).2 =
      recs.filter (fun x => decide ((afterDaily cfg s a).2 - 60000 < x)) := by
    rw [hqeq]
    show (recs.filter (fun x => decide (c < x))).filter
        (fun x => decide ((afterDaily cfg s a).2 - 60000 < x)) = _
    exact filter_filter_cutoff recs c _ (by omega)
  refine ⟨?_, ?_, ?_⟩
  · intro x hx
    rcases List.mem_append.mp hx with hx | hx
    · have := hA1 x hx
      omega
    · simp at hx
      omega
  · refine ⟨(afterDaily cfg s a).2 - 60000, by omega, ?_⟩
    show (recordApiCall th.1 rt r.used).requestQueue = _
    rw [recordApiCall_queue, hqth, hrq2]
    have hprt : (afterDaily cfg s a).2 - 60000 < rt := by omega
    simp [List.filter_append, hprt]
  · have hwin_now : (pruneQueue s.requestQueue (afterDaily cfg s a).2).length =
        windowCount recs (afterDaily cfg s a).2 := by
      rw [hrq2]
      exact filter_eq_window recs _ (fun x hx => by have := hA1 x hx; omega)
    have hKEY : (recs.filter (fun x => decide (rt - 60000 < x))).length <
        cfg.requestsPerMinute := by
      have hcomp : recs.filter (fun x => decide (rt - 60000 < x)) =
          (pruneQueue s.requestQueue (afterDaily cfg s a).2).filter
            (fun x => decide (rt - 60000 < x)) := by
        rw [hrq2]
        exact (filter_filter_cutoff recs _ _ (by omega)).symm
      rw [hcomp]
      by_cases hcap : cfg.requestsPerMinute ≤
          (pruneQueue s.requestQueue (afterDaily cfg s a).2).length
      · have hne : pruneQueue s.requestQueue (afterDaily cfg s a).2 ≠ [] := by
          intro hnil
          rw [hnil] at hcap
          simp at hcap
          omega
        obtain ⟨oldest, rest, hor⟩ := List.exists_cons_of_ne_nil hne
        have hres : rpmResumeTime cfg (pruneQueue s.requestQueue (afterDaily cfg s a).2)
            (afterDaily cfg s a).2 = oldest + 60000 := by
          unfold rpmResumeTime
          rw [if_pos hcap, hor]
        have hold : ¬ (rt - 60000 < oldest) := by
          have h1 := hth2
          rw [hres] at h1
          omega
        have hlen2 : (pruneQueue s.requestQueue (afterDaily cfg s a).2).length ≤
            cfg.requestsPerMinute := by
          rw [hwin_now]
          exact hA4 _
        rw [hor]
        have hfc : ((oldest :: rest).filter (fun x => decide (rt - 60000 < x))).length =
            (rest.filter (fun x => decide (rt - 60000 < x))).length := by
          simp [List.filter_cons, hold]
        rw [hfc]
        rw [hor] at hlen2
        simp only [List.length_cons] at hlen2
        have hrest : (rest.filter (fun x => decide (rt - 60000 < x))).length ≤
            rest.length := (List.filter_sublist rest).length_le
        omega
      · push_neg at hcap
        have hfl : ((pruneQueue s.requestQueue (afterDaily cfg s a).2).filter
            (fun x => decide (rt - 60000 < x))).length ≤
            (pruneQueue s.requestQueue (afterDaily cfg s a).2).length :=
          (List.filter_sublist _).length_le
        omega
    intro T
    rw [windowCount_append_one]
    by_cases hw : T - 60000 < rt ∧ rt ≤ T
    · rw [if_pos hw]
      have h1 : windowCount recs T ≤
          (recs.filter (fun x => decide (rt - 60000 < x))).length := by
        unfold windowCount
        apply length_filter_mono
        intro x hx hpx
        simp only [decide_eq_true_eq] at hpx ⊢
        have h2 := hw.2
        omega
      omega
    · rw [if_neg hw]
      have := hA4 T
      omega

theorem runPairs_window_bound (cfg : ThrottleCfg) (hrpm : 1 ≤ cfg.requestsPerMinute) :
    ∀ (reqs : List ThrottleReq) (s : ThrottleState) (recs : List ℤ) (t : ℤ),
      (∀ x ∈ recs, x ≤ t) →
      (∃ c, c ≤ t - 60000 ∧ s.requestQueue = recs.filter (fun x => decide (c < x))) →
      (∀ T, windowCount recs T ≤ cfg.requestsPerMinute) →
      ∀ T, windowCount (recs ++ (runPairs cfg s t reqs).2) T ≤ cfg.requestsPerMinute := by
  intro reqs
  induction reqs with
  | nil =>
    intro s recs t _ _ hA4 T
    simpa [runPairs] using hA4 T
  | cons r rs ih =>
    intro s recs t hA1 hA3 hA4 T
    have hstep := step_preserves cfg hrpm s recs t r hA1 hA3 hA4
    dsimp only at hstep
    obtain ⟨B1, B2, B3⟩ := hstep
    have hrun : (runPairs cfg s t (r :: rs)).2 =
        ((throttle cfg s (t + (r.wait : ℤ)) r.est).2 + (r.gap : ℤ)) ::
          (runPairs cfg
            (recordApiCall (throttle cfg s (t + (r.wait : ℤ)) r.est).1
              ((throttle cfg s (t + (r.wait : ℤ)) r.est).2 + (r.gap : ℤ)) r.used)
            ((throttle cfg s (t + (r.wait : ℤ)) r.est).2 + (r.gap : ℤ)) rs).2 := rfl
    rw [hrun]
    have hsplit : recs ++ ((throttle cfg s (t + (r.wait : ℤ)) r.est).2 + (r.gap : ℤ)) ::
        (runPairs cfg
          (recordApiCall (throttle cfg s (t + (r.wait : ℤ)) r.est).1
            ((throttle cfg s (t + (r.wait : ℤ)) r.est).2 + (r.gap : ℤ)) r.used)
          ((throttle cfg s (t + (r.wait : ℤ)) r.est).2 + (r.gap : ℤ)) rs).2 =
        (recs ++ [(throttle cfg s (t + (r.wait : ℤ)) r.est).2 + (r.gap : ℤ)]) ++
          (runPairs cfg
            (recordApiCall (throttle cfg s (t + (r.wait : ℤ)) r.est).1
              ((throttle cfg s (t + (r.wait : ℤ)) r.est).2 + (r.gap : ℤ)) r.used)
            ((throttle cfg s (t + (r.wait : ℤ)) r.est).2 + (r.gap : ℤ)) rs).2 := by
      simp
    rw [hsplit]
    exact ih _ _ _ B1 B2 B3 T

/-- C1 (amended): with a positive `requestsPerMinute`, every trailing
60-second window over the recorded-call timestamps of any
`throttle`/`recordApiCall` run holds at most `requestsPerMinute` records.
The daily half of the original claim is false: the daily counter resets at
midnight while sleeps can push the recording past midnight, so a calendar
day can receive more than `maxDailyRequests` records. -/
theorem C1_window_invariant (cfg : ThrottleCfg) (t0 : ℤ) (reqs : List ThrottleReq)
    (hrpm : 1 ≤ cfg.requestsPerMinute) :
    ∀ T, windowCount (runPairs cfg (mkThrottler t0) t0 reqs).2 T ≤
      cfg.requestsPerMinute := by
  intro T
  have h := runPairs_window_bound cfg hrpm reqs (mkThrottler t0) [] t0
    (by intro x hx; simp at hx)
    ⟨t0 - 60000, by omega, rfl⟩
    (fun T => by simp [windowCount])
    T
  simpa using h

/-- C1 witness: the default configuration with the two-request trace keeps
every trailing window within the 15-requests-per-minute cap. -/
theorem C1_window_invariant_witness :
    1 ≤ defaultThrottleCfg.requestsPerMinute ∧
    ∀ T, windowCount (runPairs defaultThrottleCfg (mkThrottler 0) 0 c1Trace).2 T ≤
      defaultThrottleCfg.requestsPerMinute :=
  ⟨by decide, C1_window_invariant defaultThrottleCfg 0 c1Trace (by decide)⟩

set_option maxRecDepth 4000 in
/-- C1 (counterexample): with a daily cap of one request, a call whose
token-cap sleep crosses midnight records on the next day, and a second
call after the midnight reset records on that same day — two recorded
calls on one calendar day, exceeding `maxDailyRequests = 1`. -/
theorem C1_counterexample :
    c1Cfg.maxDailyRequests <
      recordsOnDay (runPairs c1Cfg (mkThrottler 0) 0 c1Trace).2 1 := by
  decide

end Summarizer
